import Mathlib

/-!
Shallow embedding of the `zrd` text-editing core (crates `zrd-core` and
`zlyph-gpui`) and verification of the specification claims about it.

Rows of the document are modelled as `List Char`; all column arithmetic is
in UTF-8 bytes, exactly as in the Rust source (`state.rs` documents
`column` as a byte offset).  Engine time (`Instant`) is modelled as a
natural number of milliseconds passed explicitly to each action.
-/

namespace Zrd

/-- UTF-8 encoded size of a character, as Rust's `char::len_utf8`. -/
def utf8Len (c : Char) : Nat :=
  if c.toNat < 0x80 then 1
  else if c.toNat < 0x800 then 2
  else if c.toNat < 0x10000 then 3
  else 4

/-- UTF-8 byte length of a row, as Rust's `str::len`. -/
def byteLen (l : List Char) : Nat := (l.map utf8Len).sum

/-- UTF-8 encoding of one character (standard UTF-8). -/
def charBytes (c : Char) : List Nat :=
  let v := c.toNat
  if v < 0x80 then [v]
  else if v < 0x800 then [0xC0 + v / 64, 0x80 + v % 64]
  else if v < 0x10000 then [0xE0 + v / 4096, 0x80 + (v / 64) % 64, 0x80 + v % 64]
  else [0xF0 + v / 262144, 0x80 + (v / 4096) % 64, 0x80 + (v / 64) % 64, 0x80 + v % 64]

/-- UTF-8 encoding of a row, as Rust's `str::as_bytes`. -/
def utf8Bytes (l : List Char) : List Nat := l.flatMap charBytes

/-- Prefix of a row up to byte offset `n` (Rust slice `&line[..n]`);
meaningful at character boundaries, where the Rust slice is defined. -/
def takeBytes : Nat → List Char → List Char
  | _, [] => []
  | n, c :: cs => if utf8Len c ≤ n then c :: takeBytes (n - utf8Len c) cs else []

/-- Suffix of a row from byte offset `n` (Rust slice `&line[n..]`);
meaningful at character boundaries, where the Rust slice is defined. -/
def dropBytes : Nat → List Char → List Char
  | _, [] => []
  | n, c :: cs => if utf8Len c ≤ n then dropBytes (n - utf8Len c) cs else c :: cs

/-- Rust `String::replace_range(a..b, new)` on a row, byte offsets. -/
def replaceRangeB (l : List Char) (a b : Nat) (new : List Char) : List Char :=
  takeBytes a l ++ new ++ dropBytes b l

/-- Rust `String::remove(idx)`: delete the character starting at byte `idx`. -/
def removeCharAt (l : List Char) (idx : Nat) : List Char :=
  takeBytes idx l ++ (dropBytes idx l).drop 1

/-- Insert an element at position `n` of a list (Rust `Vec::insert`). -/
def insertAt (n : Nat) (a : α) (l : List α) : List α :=
  l.take n ++ a :: l.drop n

/-- The valid UTF-8 byte boundaries of a row: 0 and the cumulative byte
lengths of its character prefixes. -/
def boundaries : List Char → List Nat
  | [] => [0]
  | c :: cs => 0 :: (boundaries cs).map (· + utf8Len c)

/-- Whether byte offset `n` is a character boundary of the row, as Rust's
`str::is_char_boundary`. -/
def isBoundary (l : List Char) (n : Nat) : Bool := (boundaries l).contains n

/-- Byte index of the start of the last character of a row, as
`str::char_indices().last()` yields it (`none` on an empty row). -/
def lastCharStart : List Char → Option Nat
  | [] => none
  | c :: cs => some (byteLen ((c :: cs).dropLast))

/-- Model of Rust `char::is_whitespace` (the Unicode `White_Space` set). -/
def rustIsWhitespace (c : Char) : Bool :=
  let v := c.toNat
  (0x09 ≤ v && v ≤ 0x0D) || v = 0x20 || v = 0x85 || v = 0xA0 || v = 0x1680 ||
  (0x2000 ≤ v && v ≤ 0x200A) || v = 0x2028 || v = 0x2029 || v = 0x202F ||
  v = 0x205F || v = 0x3000

/-- Model of Rust `char::is_alphanumeric`.  Exact on ASCII, the Latin-1 /
Latin Extended letters, and the CJK Unified Ideographs; these are the only
character ranges any theorem in this development evaluates it on (every
universally quantified theorem treats it as an opaque predicate). -/
def rustIsAlphanumeric (c : Char) : Bool :=
  let v := c.toNat
  (0x30 ≤ v && v ≤ 0x39) || (0x41 ≤ v && v ≤ 0x5A) || (0x61 ≤ v && v ≤ 0x7A) ||
  (0xC0 ≤ v && v ≤ 0x24F && v ≠ 0xD7 && v ≠ 0xF7) ||
  (0x4E00 ≤ v && v ≤ 0x9FFF)

/-- Model of Rust `u8::is_ascii_whitespace` (space, tab, newline, form
feed, carriage return). -/
def isWsByte (b : Nat) : Bool :=
  b = 0x20 || b = 0x09 || b = 0x0A || b = 0x0C || b = 0x0D

/-- Rust's `while current_start < line.len() && bytes[current_start].is_ascii_whitespace()
{ current_start += 1 }`: advance a byte position past contiguous ASCII whitespace. -/
def skipAsciiWs (bs : List Nat) (b : Nat) : Nat :=
  b + ((bs.drop b).takeWhile isWsByte).length

/-- Split a character list on newline characters, as Rust `str::split('\n')`. -/
def splitNl : List Char → List (List Char)
  | [] => [[]]
  | c :: cs =>
    if c = '\n' then [] :: splitNl cs
    else
      match splitNl cs with
      | [] => [[c]]
      | l :: ls => (c :: l) :: ls

/-- Join rows with a newline separator, as Rust `[String]::join("\n")`. -/
def joinNl : List (List Char) → List Char
  | [] => []
  | [l] => l
  | l :: ls => l ++ '\n' :: joinNl ls

/-- Map a function of the index over a list, indices starting at `i0`.
Used to embed Rust `for row in a..=b` loops whose body rewrites
`lines[row]` independently per row. -/
def mapIdxFrom (f : Nat → α → α) : Nat → List α → List α
  | _, [] => []
  | i, a :: l => f i a :: mapIdxFrom f (i + 1) l

/-- Decimal digit value of a character, if any. -/
def digitVal (c : Char) : Option Nat :=
  if '0' ≤ c ∧ c ≤ '9' then some (c.toNat - 48) else none

/-- Accumulating decimal parser over a character list. -/
def parseDigitsAux : Nat → List Char → Option Nat
  | acc, [] => some acc
  | acc, c :: cs =>
    match digitVal c with
    | some d => parseDigitsAux (acc * 10 + d) cs
    | none => none

/-- Model of Rust `str::parse::<usize>()`: decimal digits with an optional
leading `+`, rejecting the empty string (overflow is not modelled; the
engine only ever parses short list-marker numerals). -/
def parseUsize : List Char → Option Nat
  | [] => none
  | '+' :: cs => if cs.isEmpty then none else parseDigitsAux 0 cs
  | l => parseDigitsAux 0 l

/-- Byte index of the first occurrence of the substring `". "`, as Rust
`str::find(". ")`. -/
def findDotSpace : List Char → Option Nat
  | '.' :: ' ' :: _ => some 0
  | c :: cs => (findDotSpace cs).map (· + utf8Len c)
  | [] => none

end Zrd

namespace Zrd

/-- Position in the document: row index and byte column within the row
(`state.rs`, `BufferPosition`). -/
structure BufferPosition where
  row : Nat
  column : Nat
deriving DecidableEq, Repr

/-- The editor document state (`state.rs`, `EditorState`): rows, cursor,
optional selection anchor, and font size.  `f32` font arithmetic in the
engine only ever touches small even integers plus 14.0, on which IEEE
arithmetic is exact, so the font size is modelled as a rational. -/
structure EditorState where
  lines : List (List Char)
  cursor : BufferPosition
  selection_anchor : Option BufferPosition
  font_size : ℚ
deriving DecidableEq

/-- The initial state (`EditorState::new`). -/
def initState : EditorState :=
  { lines := [[]], cursor := ⟨0, 0⟩, selection_anchor := none, font_size := 14 }

/-- Row `r` of the document (Rust `self.state.lines[r]`). -/
def lineAt (s : EditorState) (r : Nat) : List Char := s.lines.getD r []

/-- Serialize the document (`EditorState::to_string`): rows joined with `\n`. -/
def toTextS (s : EditorState) : List Char := joinNl s.lines

/-- Parse a document (`EditorState::from_string`): split on `\n`, empty
input mapping to a single empty row. -/
def fromStringS (content : List Char) : EditorState :=
  { lines := if content.isEmpty then [[]] else splitNl content,
    cursor := ⟨0, 0⟩, selection_anchor := none, font_size := 14 }

/-- Ordered selection range (`EditorEngine::selection_range`): anchor and
cursor ordered by row, then column. -/
def selectionRange (s : EditorState) : Option (BufferPosition × BufferPosition) :=
  s.selection_anchor.map fun anchor =>
    if anchor.row < s.cursor.row ∨ (anchor.row = s.cursor.row ∧ anchor.column < s.cursor.column)
    then (anchor, s.cursor) else (s.cursor, anchor)

/-- Delete the byte range `start..end` from the document
(`EditorEngine::delete_range`). -/
def deleteRange (s : EditorState) (start stop : BufferPosition) : EditorState :=
  if start.row = stop.row then
    { s with lines := s.lines.set start.row (replaceRangeB (lineAt s start.row) start.column stop.column []) }
  else
    let firstPart := takeBytes start.column (lineAt s start.row)
    let lastPart := dropBytes stop.column (lineAt s stop.row)
    { s with lines := s.lines.take start.row ++ [firstPart ++ lastPart] ++ s.lines.drop (stop.row + 1) }

/-- Delete the range and collapse: the body of the `Some` branch of
`delete_selection` (and of the selection branches of `backspace`/`delete`). -/
def collapseSel (s : EditorState) (start stop : BufferPosition) : EditorState :=
  { deleteRange s start stop with cursor := start, selection_anchor := none }

/-- `EditorEngine::delete_selection`. -/
def deleteSelection (s : EditorState) : EditorState :=
  match selectionRange s with
  | some (start, stop) => collapseSel s start stop
  | none => s

/-- One character inserted at the cursor: the body shared by
`type_character` and the loop of `type_string` (after selection deletion). -/
def typeCharCore (c : Char) (s : EditorState) : EditorState :=
  if c = '\n' then
    let line := lineAt s s.cursor.row
    { s with
      lines := insertAt (s.cursor.row + 1) (dropBytes s.cursor.column line)
        (s.lines.set s.cursor.row (takeBytes s.cursor.column line)),
      cursor := ⟨s.cursor.row + 1, 0⟩ }
  else
    { s with
      lines := s.lines.set s.cursor.row
        (replaceRangeB (lineAt s s.cursor.row) s.cursor.column s.cursor.column [c]),
      cursor := ⟨s.cursor.row, s.cursor.column + utf8Len c⟩ }

/-- `EditorEngine::type_character` (document part). -/
def typeCharState (c : Char) (s : EditorState) : EditorState :=
  typeCharCore c (deleteSelection s)

/-- The character loop of `type_string`. -/
def typeStringCore (str : List Char) (s : EditorState) : EditorState :=
  str.foldl (fun s c => typeCharCore c s) s

/-- `EditorEngine::type_string` (document part). -/
def typeStringState (str : List Char) (s : EditorState) : EditorState :=
  typeStringCore str (deleteSelection s)

/-- `EditorEngine::backspace` (document part). -/
def backspaceState (s : EditorState) : EditorState :=
  match selectionRange s with
  | some (start, stop) => collapseSel s start stop
  | none =>
    if 0 < s.cursor.column then
      let line := lineAt s s.cursor.row
      match lastCharStart (takeBytes s.cursor.column line) with
      | some lastStart =>
        { s with lines := s.lines.set s.cursor.row (removeCharAt line lastStart),
                 cursor := ⟨s.cursor.row, lastStart⟩ }
      | none => s
    else if 0 < s.cursor.row then
      let currentLine := lineAt s s.cursor.row
      let prevLine := lineAt s (s.cursor.row - 1)
      { s with lines := (s.lines.eraseIdx s.cursor.row).set (s.cursor.row - 1) (prevLine ++ currentLine),
               cursor := ⟨s.cursor.row - 1, byteLen prevLine⟩ }
    else s

/-- `EditorEngine::delete` (document part). -/
def deleteState (s : EditorState) : EditorState :=
  match selectionRange s with
  | some (start, stop) => collapseSel s start stop
  | none =>
    let line := lineAt s s.cursor.row
    if s.cursor.column < byteLen line then
      { s with lines := s.lines.set s.cursor.row (removeCharAt line s.cursor.column) }
    else if s.cursor.row + 1 < s.lines.length then
      let nextLine := lineAt s (s.cursor.row + 1)
      { s with lines := (s.lines.eraseIdx (s.cursor.row + 1)).set s.cursor.row (line ++ nextLine) }
    else s

/-- `EditorEngine::detect_list_pattern`: the marker to continue with, the
byte length of indent plus marker on the current row, and whether the
content after the marker is empty. -/
def detectListPattern (line : List Char) : Option (List Char × Nat × Bool) :=
  let trimmed := line.dropWhile rustIsWhitespace
  let indentLen := byteLen line - byteLen trimmed
  if ("- [ ] ".toList).isPrefixOf trimmed then
    some ("- [ ] ".toList, indentLen + 6, (trimmed.drop 6).isEmpty)
  else if ("- [x] ".toList).isPrefixOf trimmed then
    some ("- [ ] ".toList, indentLen + 6, (trimmed.drop 6).isEmpty)
  else if ("- [X] ".toList).isPrefixOf trimmed then
    some ("- [ ] ".toList, indentLen + 6, (trimmed.drop 6).isEmpty)
  else if ("- ".toList).isPrefixOf trimmed then
    some ("- ".toList, indentLen + 2, (trimmed.drop 2).isEmpty)
  else if ("* ".toList).isPrefixOf trimmed then
    some ("* ".toList, indentLen + 2, (trimmed.drop 2).isEmpty)
  else if ("+ ".toList).isPrefixOf trimmed then
    some ("+ ".toList, indentLen + 2, (trimmed.drop 2).isEmpty)
  else
    match findDotSpace trimmed with
    | some numberEnd =>
      match parseUsize (takeBytes numberEnd trimmed) with
      | some num =>
        some (Nat.toDigits 10 (num + 1) ++ ". ".toList, indentLen + numberEnd + 2,
          (dropBytes (numberEnd + 2) trimmed).isEmpty)
      | none => none
    | none => none

/-- The body of `EditorEngine::newline` after the selection deletion. -/
def newlineCore (s : EditorState) : EditorState :=
  let line := lineAt s s.cursor.row
  match detectListPattern line with
  | some (pat, patLen, isEmp) =>
    if isEmp then
      { s with
        lines := insertAt (s.cursor.row + 1) []
          (s.lines.set s.cursor.row (takeBytes (byteLen line - patLen) line)),
        cursor := ⟨s.cursor.row + 1, 0⟩ }
    else
      { s with
        lines := insertAt (s.cursor.row + 1) (pat ++ dropBytes s.cursor.column line)
          (s.lines.set s.cursor.row (takeBytes s.cursor.column line)),
        cursor := ⟨s.cursor.row + 1, byteLen pat⟩ }
  | none =>
    { s with
      lines := insertAt (s.cursor.row + 1) (dropBytes s.cursor.column line)
        (s.lines.set s.cursor.row (takeBytes s.cursor.column line)),
      cursor := ⟨s.cursor.row + 1, 0⟩ }

/-- `EditorEngine::newline` (document part): delete the selection, then
split (continuing a list marker when one is detected). -/
def newlineState (s : EditorState) : EditorState :=
  newlineCore (deleteSelection s)

end Zrd

namespace Zrd

/-- `self.state.selection_anchor = None` (`clear_selection`). -/
def clearSel (s : EditorState) : EditorState := { s with selection_anchor := none }

/-- The anchor-pinning prelude of every `select_*` action: if no anchor is
set, pin it to the current cursor. -/
def pinAnchor (s : EditorState) : EditorState :=
  match s.selection_anchor with
  | none => { s with selection_anchor := some s.cursor }
  | some _ => s

/-- The shared movement body of `move_left` / `select_left`. -/
def moveLeftBody (s : EditorState) : EditorState :=
  if 0 < s.cursor.column then
    let before := takeBytes s.cursor.column (lineAt s s.cursor.row)
    match before.getLast? with
    | some prevChar => { s with cursor := ⟨s.cursor.row, s.cursor.column - utf8Len prevChar⟩ }
    | none => s
  else if 0 < s.cursor.row then
    { s with cursor := ⟨s.cursor.row - 1, byteLen (lineAt s (s.cursor.row - 1))⟩ }
  else s

/-- The shared movement body of `move_right` / `select_right`. -/
def moveRightBody (s : EditorState) : EditorState :=
  if s.cursor.column < byteLen (lineAt s s.cursor.row) then
    match (dropBytes s.cursor.column (lineAt s s.cursor.row)).head? with
    | some nextChar => { s with cursor := ⟨s.cursor.row, s.cursor.column + utf8Len nextChar⟩ }
    | none => s
  else if s.cursor.row + 1 < s.lines.length then
    { s with cursor := ⟨s.cursor.row + 1, 0⟩ }
  else s

/-- The shared movement body of `move_up` / `select_up`. -/
def moveUpBody (s : EditorState) : EditorState :=
  if 0 < s.cursor.row then
    { s with cursor := ⟨s.cursor.row - 1, min s.cursor.column (byteLen (lineAt s (s.cursor.row - 1)))⟩ }
  else s

/-- The shared movement body of `move_down` / `select_down`. -/
def moveDownBody (s : EditorState) : EditorState :=
  if s.cursor.row + 1 < s.lines.length then
    { s with cursor := ⟨s.cursor.row + 1, min s.cursor.column (byteLen (lineAt s (s.cursor.row + 1)))⟩ }
  else s

/-- The whitespace-skipping loop of `move_word_left`: `pos` is a byte
column but `chars().nth(pos - 1)` indexes by characters, exactly as the
source does. -/
def skipWsLeft (line : List Char) : Nat → Nat
  | 0 => 0
  | p + 1 => if (line.get? p).elim false rustIsWhitespace then skipWsLeft line p else p + 1

/-- The word-skipping loop of `move_word_left`: stops when the character
before the position is neither alphanumeric nor an underscore. -/
def skipWordLeft (line : List Char) : Nat → Nat
  | 0 => 0
  | p + 1 =>
    if (line.get? p).elim false (fun c => !rustIsAlphanumeric c && c ≠ '_') then p + 1
    else skipWordLeft line p

/-- `EditorEngine::move_word_left`. -/
def moveWordLeftState (s : EditorState) : EditorState :=
  let s := clearSel s
  if s.cursor.column = 0 then
    if 0 < s.cursor.row then
      { s with cursor := ⟨s.cursor.row - 1, byteLen (lineAt s (s.cursor.row - 1))⟩ }
    else s
  else
    let line := lineAt s s.cursor.row
    { s with cursor := ⟨s.cursor.row, skipWordLeft line (skipWsLeft line s.cursor.column)⟩ }

/-- The word-skipping loop of `move_word_right` (`// Skip current word`). -/
def skipWordRightAux (line : List Char) (len : Nat) (pos : Nat) : Nat :=
  if h : pos < len then
    if (line.get? pos).elim false (fun c => !rustIsAlphanumeric c && c ≠ '_') then pos
    else skipWordRightAux line len (pos + 1)
  else pos
termination_by len - pos

/-- The whitespace-skipping loop of `move_word_right`. -/
def skipWsRightAux (line : List Char) (len : Nat) (pos : Nat) : Nat :=
  if h : pos < len ∧ (line.get? pos).elim false rustIsWhitespace then
    skipWsRightAux line len (pos + 1)
  else pos
termination_by len - pos

/-- `EditorEngine::move_word_right`. -/
def moveWordRightState (s : EditorState) : EditorState :=
  let s := clearSel s
  let line := lineAt s s.cursor.row
  if byteLen line ≤ s.cursor.column then
    if s.cursor.row < s.lines.length - 1 then
      { s with cursor := ⟨s.cursor.row + 1, 0⟩ }
    else s
  else
    { s with cursor := ⟨s.cursor.row,
        skipWsRightAux line (byteLen line) (skipWordRightAux line (byteLen line) s.cursor.column)⟩ }

/-- `EditorEngine::move_to_line_start`. -/
def moveToLineStartState (s : EditorState) : EditorState :=
  { clearSel s with cursor := ⟨s.cursor.row, 0⟩ }

/-- `EditorEngine::move_to_line_end`. -/
def moveToLineEndState (s : EditorState) : EditorState :=
  { clearSel s with cursor := ⟨s.cursor.row, byteLen (lineAt s s.cursor.row)⟩ }

/-- `EditorEngine::select_all`. -/
def selectAllState (s : EditorState) : EditorState :=
  let lastRow := s.lines.length - 1
  { s with selection_anchor := some ⟨0, 0⟩,
           cursor := ⟨lastRow, byteLen (lineAt s lastRow)⟩ }

/-- `EditorEngine::set_cursor_position`: clamp to valid bounds. -/
def setCursorPositionState (row column : Nat) (s : EditorState) : EditorState :=
  let s := clearSel s
  let r := min row (s.lines.length - 1)
  let c := min column (byteLen (lineAt s r))
  { s with cursor := ⟨r, c⟩ }

/-- `EditorEngine::start_selection`. -/
def startSelectionState (row column : Nat) (s : EditorState) : EditorState :=
  let r := min row (s.lines.length - 1)
  let c := min column (byteLen (lineAt s r))
  { s with cursor := ⟨r, c⟩, selection_anchor := some ⟨r, c⟩ }

/-- `EditorEngine::extend_selection`. -/
def extendSelectionState (row column : Nat) (s : EditorState) : EditorState :=
  let s := pinAnchor s
  let r := min row (s.lines.length - 1)
  let c := min column (byteLen (lineAt s r))
  { s with cursor := ⟨r, c⟩ }

/-- `EditorEngine::delete_line` (document part). -/
def deleteLineState (s : EditorState) : EditorState :=
  let s1 :=
    if s.lines.length = 1 then
      { s with lines := s.lines.set 0 [], cursor := ⟨0, 0⟩ }
    else if s.cursor.row < s.lines.length - 1 then
      { s with lines := s.lines.eraseIdx s.cursor.row, cursor := ⟨s.cursor.row, 0⟩ }
    else
      { s with lines := s.lines.eraseIdx s.cursor.row, cursor := ⟨s.cursor.row - 1, 0⟩ }
  clearSel s1

/-- `EditorEngine::delete_to_beginning_of_line` (document part). -/
def deleteToBeginningOfLineState (s : EditorState) : EditorState :=
  { s with lines := s.lines.set s.cursor.row (replaceRangeB (lineAt s s.cursor.row) 0 s.cursor.column []),
           cursor := ⟨s.cursor.row, 0⟩ }

/-- `EditorEngine::delete_to_end_of_line` (document part). -/
def deleteToEndOfLineState (s : EditorState) : EditorState :=
  let line := lineAt s s.cursor.row
  { s with lines := s.lines.set s.cursor.row (replaceRangeB line s.cursor.column (byteLen line) []) }

/-- `EditorEngine::move_line_up` (document part; the `row == 0` early
return is handled at the engine level, before the undo push, as in the
source). -/
def moveLineUpState (s : EditorState) : EditorState :=
  let a := lineAt s s.cursor.row
  let b := lineAt s (s.cursor.row - 1)
  { s with lines := (s.lines.set s.cursor.row b).set (s.cursor.row - 1) a,
           cursor := ⟨s.cursor.row - 1, s.cursor.column⟩ }

/-- `EditorEngine::move_line_down` (document part; the last-row early
return is handled at the engine level). -/
def moveLineDownState (s : EditorState) : EditorState :=
  let a := lineAt s s.cursor.row
  let b := lineAt s (s.cursor.row + 1)
  { s with lines := (s.lines.set s.cursor.row b).set (s.cursor.row + 1) a,
           cursor := ⟨s.cursor.row + 1, s.cursor.column⟩ }

/-- `EditorEngine::tab` (document part). -/
def tabState (s : EditorState) : EditorState :=
  match selectionRange s with
  | some (start, stop) =>
    { s with
      lines := mapIdxFrom
        (fun i l => if start.row ≤ i ∧ i ≤ stop.row then "    ".toList ++ l else l) 0 s.lines,
      selection_anchor := some ⟨start.row, start.column + 4⟩,
      cursor := ⟨stop.row, stop.column + 4⟩ }
  | none =>
    { s with
      lines := s.lines.set s.cursor.row
        (replaceRangeB (lineAt s s.cursor.row) s.cursor.column s.cursor.column "    ".toList),
      cursor := ⟨s.cursor.row, s.cursor.column + 4⟩ }

/-- Number of leading spaces to remove on one outdent step:
`chars().take(4).take_while(c == ' ').count()`. -/
def spacesCount (l : List Char) : Nat := ((l.take 4).takeWhile (· = ' ')).length

/-- Outdent applied to one row: remove its leading spaces (at most 4). -/
def outdentLine (l : List Char) : List Char :=
  if 0 < spacesCount l then replaceRangeB l 0 (spacesCount l) [] else l

/-- `EditorEngine::outdent` (document part).  In the selection branch the
cursor and anchor columns are moved by `saturating_sub(4)`, which on `Nat`
is plain truncated subtraction. -/
def outdentState (s : EditorState) : EditorState :=
  match selectionRange s with
  | some (start, stop) =>
    { s with
      lines := mapIdxFrom
        (fun i l => if start.row ≤ i ∧ i ≤ stop.row then outdentLine l else l) 0 s.lines,
      selection_anchor := some ⟨start.row, start.column - 4⟩,
      cursor := ⟨stop.row, stop.column - 4⟩ }
  | none =>
    let n := spacesCount (lineAt s s.cursor.row)
    if 0 < n then
      { s with lines := s.lines.set s.cursor.row (replaceRangeB (lineAt s s.cursor.row) 0 n []),
               cursor := ⟨s.cursor.row, s.cursor.column - n⟩ }
    else s

end Zrd

namespace Zrd

/-- The closed action set interpreted by `EditorEngine::handle_action`
(`actions.rs`, `EditorAction`). -/
inductive EditorAction where
  | TypeCharacter (c : Char)
  | TypeString (s : List Char)
  | Backspace
  | Delete
  | Newline
  | Paste (s : List Char)
  | MoveLeft
  | MoveRight
  | MoveUp
  | MoveDown
  | MoveToBeginningOfLine
  | MoveToEndOfLine
  | MoveWordLeft
  | MoveWordRight
  | SelectLeft
  | SelectRight
  | SelectUp
  | SelectDown
  | SelectWordLeft
  | SelectWordRight
  | SelectAll
  | Undo
  | Redo
  | Cut
  | Copy
  | DeleteLine
  | DeleteToBeginningOfLine
  | DeleteToEndOfLine
  | DeleteWordLeft
  | DeleteWordRight
  | MoveLineUp
  | MoveLineDown
  | Tab
  | Outdent
  | IncreaseFontSize
  | DecreaseFontSize
  | ResetFontSize
  | Quit
  | SetCursorPosition (row column : Nat)
  | StartSelection (row column : Nat)
  | ExtendSelection (row column : Nat)
deriving DecidableEq

/-- The engine (`engine.rs`, `EditorEngine`): document state, undo and
redo stacks (head of the list is the top of the stack), and the time of
the last chunk-coalescing edit, in milliseconds. -/
structure Engine where
  state : EditorState
  undo_stack : List EditorState
  redo_stack : List EditorState
  last_edit_time : Option Nat
deriving DecidableEq

/-- `EditorEngine::new`. -/
def initEngine : Engine :=
  { state := initState, undo_stack := [], redo_stack := [], last_edit_time := none }

/-- `EditorEngine::should_push_undo_state`: push when no edit time is
recorded or strictly more than 500ms have elapsed. -/
def shouldPushUndoState (e : Engine) (now : Nat) : Bool :=
  match e.last_edit_time with
  | some t => 500 < now - t
  | none => true

/-- `EditorEngine::push_undo_state`: snapshot the current state and clear
the redo stack, unless the edit coalesces into the current chunk. -/
def pushUndoState (e : Engine) (now : Nat) : Engine :=
  if shouldPushUndoState e now then
    { e with undo_stack := e.state :: e.undo_stack, redo_stack := [] }
  else e

/-- An edit that calls `push_undo_state()` then `mark_edit_time()` before
mutating the document (`type_character`, `type_string`, `backspace`,
`delete`). -/
def timedEditStep (f : EditorState → EditorState) (now : Nat) (e : Engine) : Engine :=
  let e1 := pushUndoState e now
  { e1 with last_edit_time := some now, state := f e1.state }

/-- An edit that calls `push_undo_state()` then sets
`last_edit_time = None` before mutating (`newline`, `delete_line`,
`delete_to_*`, `move_line_*`, `tab`, `outdent`). -/
def untimedEditStep (f : EditorState → EditorState) (now : Nat) (e : Engine) : Engine :=
  let e1 := pushUndoState e now
  { e1 with last_edit_time := none, state := f e1.state }

/-- `EditorEngine::undo`. -/
def undoE (e : Engine) : Engine :=
  match e.undo_stack with
  | [] => e
  | p :: rest =>
    { state := p, undo_stack := rest, redo_stack := e.state :: e.redo_stack,
      last_edit_time := none }

/-- `EditorEngine::redo`. -/
def redoE (e : Engine) : Engine :=
  match e.redo_stack with
  | [] => e
  | n :: rest =>
    { state := n, undo_stack := e.state :: e.undo_stack, redo_stack := rest,
      last_edit_time := none }

/-- `EditorEngine::delete_word_left`: move first, and only push an undo
frame and edit when the move stayed on the same row. -/
def deleteWordLeftE (now : Nat) (e : Engine) : Engine :=
  let startPos := e.state.cursor
  let s1 := moveWordLeftState e.state
  let stopPos := s1.cursor
  if startPos.row = stopPos.row then
    let e1 := pushUndoState { e with state := s1 } now
    let newLine := replaceRangeB (lineAt e1.state stopPos.row) stopPos.column startPos.column []
    { e1 with last_edit_time := none,
              state := { e1.state with lines := e1.state.lines.set stopPos.row newLine } }
  else { e with state := s1 }

/-- `EditorEngine::delete_word_right`: move first, and only push, restore
the cursor, and edit when the move stayed on the same row. -/
def deleteWordRightE (now : Nat) (e : Engine) : Engine :=
  let startPos := e.state.cursor
  let s1 := moveWordRightState e.state
  let stopPos := s1.cursor
  if startPos.row = stopPos.row then
    let e1 := pushUndoState { e with state := s1 } now
    let newLine := replaceRangeB (lineAt e1.state startPos.row) startPos.column stopPos.column []
    let s2 := { e1.state with cursor := startPos, lines := e1.state.lines.set startPos.row newLine }
    { e1 with last_edit_time := none, state := s2 }
  else { e with state := s1 }

/-- Replace only the document state of the engine (navigation and
selection actions touch neither the stacks nor the edit time). -/
def stateStep (f : EditorState → EditorState) (e : Engine) : Engine :=
  { e with state := f e.state }

/-- `EditorEngine::handle_action`, with the current `Instant::now()`
passed explicitly as `now`. -/
def handleAction (act : EditorAction) (now : Nat) (e : Engine) : Engine :=
  match act with
  | .TypeCharacter c => timedEditStep (typeCharState c) now e
  | .TypeString str => timedEditStep (typeStringState str) now e
  | .Backspace => timedEditStep backspaceState now e
  | .Delete => timedEditStep deleteState now e
  | .Newline => untimedEditStep newlineState now e
  | .Paste _ => e
  | .MoveLeft => stateStep (fun s => moveLeftBody (clearSel s)) e
  | .MoveRight => stateStep (fun s => moveRightBody (clearSel s)) e
  | .MoveUp => stateStep (fun s => moveUpBody (clearSel s)) e
  | .MoveDown => stateStep (fun s => moveDownBody (clearSel s)) e
  | .MoveToBeginningOfLine => stateStep moveToLineStartState e
  | .MoveToEndOfLine => stateStep moveToLineEndState e
  | .MoveWordLeft => stateStep moveWordLeftState e
  | .MoveWordRight => stateStep moveWordRightState e
  | .SelectLeft => stateStep (fun s => moveLeftBody (pinAnchor s)) e
  | .SelectRight => stateStep (fun s => moveRightBody (pinAnchor s)) e
  | .SelectUp => stateStep (fun s => moveUpBody (pinAnchor s)) e
  | .SelectDown => stateStep (fun s => moveDownBody (pinAnchor s)) e
  | .SelectWordLeft => stateStep (fun s => moveWordLeftState (pinAnchor s)) e
  | .SelectWordRight => stateStep (fun s => moveWordRightState (pinAnchor s)) e
  | .SelectAll => stateStep selectAllState e
  | .Undo => undoE e
  | .Redo => redoE e
  | .Cut => e
  | .Copy => e
  | .DeleteLine => untimedEditStep deleteLineState now e
  | .DeleteToBeginningOfLine => untimedEditStep deleteToBeginningOfLineState now e
  | .DeleteToEndOfLine => untimedEditStep deleteToEndOfLineState now e
  | .DeleteWordLeft => deleteWordLeftE now e
  | .DeleteWordRight => deleteWordRightE now e
  | .MoveLineUp => if e.state.cursor.row = 0 then e else untimedEditStep moveLineUpState now e
  | .MoveLineDown =>
    if e.state.lines.length ≤ e.state.cursor.row + 1 then e
    else untimedEditStep moveLineDownState now e
  | .Tab => untimedEditStep tabState now e
  | .Outdent => untimedEditStep outdentState now e
  | .IncreaseFontSize =>
    stateStep (fun s => { s with font_size := min (s.font_size + 2) 72 }) e
  | .DecreaseFontSize =>
    stateStep (fun s => { s with font_size := max (s.font_size - 2) 8 }) e
  | .ResetFontSize => stateStep (fun s => { s with font_size := 14 }) e
  | .Quit => e
  | .SetCursorPosition row column => stateStep (setCursorPositionState row column) e
  | .StartSelection row column => stateStep (startSelectionState row column) e
  | .ExtendSelection row column => stateStep (extendSelectionState row column) e

/-- Run a trace of timed actions from the freshly created engine. -/
def run (tr : List (EditorAction × Nat)) : Engine :=
  tr.foldl (fun e p => handleAction p.1 p.2 e) initEngine

end Zrd

namespace Zrd

/-- Wrap classification of a visual segment (`text_buffer.rs`, `WrapType`). -/
inductive WrapType where
  | SoftWrap
  | HardWrap
  | Hyphenated
deriving DecidableEq, Repr

/-- One wrapped segment of a row (`text_buffer.rs`, `VisualLine`): the
byte range `[vstart, vend)` within the row and its wrap type. -/
structure VisualLine where
  vstart : Nat
  vend : Nat
  wrap_type : WrapType
deriving DecidableEq, Repr

/-- `TextBuffer::try_hyphenate_word`: hyphenation is disabled and always
declines. -/
def tryHyphenateWord : Option (List VisualLine) := none

/-- Loop state of `compute_visual_lines`: emitted segments, start byte of
the unflushed segment, and the most recent whitespace boundary. -/
structure WrapState where
  segs : List VisualLine
  currentStart : Nat
  lastBoundary : Option Nat
deriving DecidableEq, Repr

/-- The enumeration driving `compute_visual_lines`: for each character its
start byte index, the character, and the next byte index (`chars.get(i+1)`
falling back to `line.len()`). -/
def idxTriples : Nat → List Char → List (Nat × Char × Nat)
  | _, [] => []
  | p, c :: cs => (p, c, p + utf8Len c) :: idxTriples (p + utf8Len c) cs

/-- The fallback of the wrap-check when no usable whitespace boundary
exists: try hyphenation, else close a hard segment at the current
character. -/
def wrapHard (_bs : List Nat) (byteIdx : Nat) (st : WrapState) : WrapState :=
  if st.currentStart < byteIdx then
    match tryHyphenateWord with
    | some hyph =>
      { segs := st.segs ++ hyph, currentStart := byteIdx, lastBoundary := none }
    | none =>
      { segs := st.segs ++ [⟨st.currentStart, byteIdx, .HardWrap⟩],
        currentStart := byteIdx, lastBoundary := none }
  else { st with lastBoundary := none }

/-- One iteration of the `compute_visual_lines` scan. -/
def wrapStep (advance : Nat → ℚ) (wrapWidth : ℚ) (bs : List Nat)
    (st : WrapState) (t : Nat × Char × Nat) : WrapState :=
  let byteIdx := t.1
  let ch := t.2.1
  let nextIdx := t.2.2
  let xPosRelative := advance nextIdx - advance st.currentStart
  let lb := if rustIsWhitespace ch then some nextIdx else st.lastBoundary
  let st := { st with lastBoundary := lb }
  if wrapWidth < xPosRelative then
    match st.lastBoundary with
    | some boundary =>
      if st.currentStart < boundary then
        { segs := st.segs ++ [⟨st.currentStart, boundary, .SoftWrap⟩],
          currentStart := skipAsciiWs bs boundary, lastBoundary := none }
      else wrapHard bs byteIdx st
    | none => wrapHard bs byteIdx st
  else st

/-- `TextBuffer::compute_visual_lines`, with the opaque measurement
`ShapedLine::x_for_index` passed as `advance` (pixel advances modelled as
rationals, over which the wrap comparisons are exact). -/
def computeVisualLines (advance : Nat → ℚ) (wrapWidth : ℚ) (line : List Char) : List VisualLine :=
  if line.isEmpty then [⟨0, 0, .SoftWrap⟩]
  else
    let bs := utf8Bytes line
    let len := byteLen line
    let st := (idxTriples 0 line).foldl (wrapStep advance wrapWidth bs) ⟨[], 0, none⟩
    let segs :=
      if st.currentStart < len then st.segs ++ [⟨st.currentStart, len, .SoftWrap⟩] else st.segs
    if segs.isEmpty then [⟨0, len, .SoftWrap⟩] else segs

end Zrd

namespace Zrd

lemma utf8Len_pos (c : Char) : 0 < utf8Len c := by
  unfold utf8Len; split <;> [omega; split <;> [omega; split <;> omega]]

lemma byteLen_pos {l : List Char} (h : l ≠ []) : 0 < byteLen l := by
  cases l with
  | nil => exact absurd rfl h
  | cons c cs =>
    have := utf8Len_pos c
    simp [byteLen]; omega

lemma charBytes_length (c : Char) : (charBytes c).length = utf8Len c := by
  simp only [charBytes, utf8Len]
  by_cases h1 : c.toNat < 0x80
  · simp [h1]
  · by_cases h2 : c.toNat < 0x800
    · simp [h1, h2]
    · by_cases h3 : c.toNat < 0x10000
      · simp [h1, h2, h3]
      · simp [h1, h2, h3]

lemma utf8Bytes_length (l : List Char) : (utf8Bytes l).length = byteLen l := by
  induction l with
  | nil => rfl
  | cons c cs ih => simp [utf8Bytes, byteLen, charBytes_length] at *; omega

lemma insertAt_length {l : List α} {n : Nat} (a : α) (h : n ≤ l.length) :
    (insertAt n a l).length = l.length + 1 := by
  simp [insertAt]; omega

lemma insertAt_cons_succ (n : Nat) (a x : α) (xs : List α) :
    insertAt (n + 1) a (x :: xs) = x :: insertAt n a xs := rfl

lemma insertAt_get?_self (a : α) :
    ∀ (n : Nat) (l : List α), n ≤ l.length → (insertAt n a l).get? n = some a
  | 0, _, _ => rfl
  | n + 1, [], h => by simp at h
  | n + 1, x :: xs, h => by
    rw [insertAt_cons_succ]
    simpa using insertAt_get?_self a n xs (by simpa using h)

lemma mapIdxFrom_length (f : Nat → α → α) (i : Nat) (l : List α) :
    (mapIdxFrom f i l).length = l.length := by
  induction l generalizing i with
  | nil => rfl
  | cons a l ih => simp [mapIdxFrom, ih]

lemma mapIdxFrom_get? (f : Nat → α → α) (i j : Nat) (l : List α) :
    (mapIdxFrom f i l).get? j = (l.get? j).map (f (i + j)) := by
  induction l generalizing i j with
  | nil => simp [mapIdxFrom]
  | cons a l ih =>
    cases j with
    | zero => simp [mapIdxFrom]
    | succ j =>
      have h2 := ih (i + 1) j
      have hi : i + 1 + j = i + (j + 1) := by omega
      rw [mapIdxFrom]
      show (mapIdxFrom f (i + 1) l).get? j = (l.get? j).map (f (i + (j + 1)))
      rw [h2, hi]

lemma splitNl_cons (c : Char) (cs : List Char) :
    splitNl (c :: cs) =
      if c = '\n' then [] :: splitNl cs
      else
        match splitNl cs with
        | [] => [[c]]
        | l :: ls => (c :: l) :: ls := rfl

lemma splitNl_no_nl {l : List Char} (h : '\n' ∉ l) : splitNl l = [l] := by
  induction l with
  | nil => rfl
  | cons c cs ih =>
    simp only [List.mem_cons, not_or] at h
    rw [splitNl_cons, if_neg (fun hc => h.1 hc.symm), ih h.2]

lemma splitNl_append_nl {l : List Char} (rest : List Char) (h : '\n' ∉ l) :
    splitNl (l ++ '\n' :: rest) = l :: splitNl rest := by
  induction l with
  | nil => rw [List.nil_append, splitNl_cons, if_pos rfl]
  | cons c cs ih =>
    simp only [List.mem_cons, not_or] at h
    rw [List.cons_append, splitNl_cons, if_neg (fun hc => h.1 hc.symm), ih h.2]

lemma splitNl_joinNl {ls : List (List Char)} (hne : ls ≠ [])
    (h : ∀ l ∈ ls, '\n' ∉ l) : splitNl (joinNl ls) = ls := by
  induction ls with
  | nil => exact absurd rfl hne
  | cons l ls ih =>
    cases ls with
    | nil => simpa [joinNl] using splitNl_no_nl (h l (by simp))
    | cons l' ls' =>
      have h1 : joinNl (l :: l' :: ls') = l ++ '\n' :: joinNl (l' :: ls') := rfl
      rw [h1, splitNl_append_nl _ (h l (by simp)),
        ih (by simp) (fun x hx => h x (List.mem_cons_of_mem _ hx))]

lemma joinNl_nil_cases {ls : List (List Char)} (h : joinNl ls = []) :
    ls = [] ∨ ls = [[]] := by
  match ls with
  | [] => exact Or.inl rfl
  | [l] => exact Or.inr (by simp [joinNl] at h; simp [h])
  | l :: l' :: ls' =>
    exfalso
    have : joinNl (l :: l' :: ls') = l ++ '\n' :: joinNl (l' :: ls') := rfl
    rw [this] at h
    simpa using congrArg List.length h

end Zrd

namespace Zrd

/-- All bytes of `bs` in the half-open index range `[a, b)` are ASCII
whitespace. -/
def gapWs (bs : List Nat) (a b : Nat) : Prop :=
  ∀ j, a ≤ j → j < b → isWsByte (bs.getD j 0) = true

/-- An ordered, non-overlapping run of non-empty segments between byte
positions `lo` and `hi`: every gap (before a segment, between segments, or
after the last one) consists solely of ASCII-whitespace bytes. -/
def chain (bs : List Nat) : Nat → List VisualLine → Nat → Prop
  | lo, [], hi => lo ≤ hi ∧ gapWs bs lo hi
  | lo, s :: rest, hi =>
    lo ≤ s.vstart ∧ gapWs bs lo s.vstart ∧ s.vstart < s.vend ∧ chain bs s.vend rest hi

lemma gapWs_empty {bs : List Nat} {a b : Nat} (h : b ≤ a) : gapWs bs a b :=
  fun _ hj1 hj2 => absurd (lt_of_le_of_lt hj1 hj2) (not_lt_of_le h)

lemma gapWs_trans {bs : List Nat} {a b c : Nat} (h1 : gapWs bs a b) (h2 : gapWs bs b c) :
    gapWs bs a c := by
  intro j hj1 hj2
  rcases lt_or_le j b with hb | hb
  · exact h1 j hj1 hb
  · exact h2 j hb hj2

lemma chain_snoc {bs : List Nat} {segs : List VisualLine} {lo hi a e : Nat} (t : WrapType)
    (hc : chain bs lo segs hi) (h1 : hi ≤ a) (h2 : gapWs bs hi a) (h3 : a < e) :
    chain bs lo (segs ++ [⟨a, e, t⟩]) e := by
  induction segs generalizing lo with
  | nil =>
    obtain ⟨hle, hg⟩ := hc
    exact ⟨le_trans hle h1, gapWs_trans hg h2, h3, le_refl e, gapWs_empty (le_refl e)⟩
  | cons s rest ih =>
    obtain ⟨hls, hg, hse, hrest⟩ := hc
    exact ⟨hls, hg, hse, ih hrest⟩

lemma chain_extend {bs : List Nat} {segs : List VisualLine} {lo hi hi' : Nat}
    (hc : chain bs lo segs hi) (h1 : hi ≤ hi') (h2 : gapWs bs hi hi') :
    chain bs lo segs hi' := by
  induction segs generalizing lo with
  | nil =>
    obtain ⟨hle, hg⟩ := hc
    exact ⟨le_trans hle h1, gapWs_trans hg h2⟩
  | cons s rest ih =>
    obtain ⟨hls, hg, hse, hrest⟩ := hc
    exact ⟨hls, hg, hse, ih hrest⟩

lemma takeWhile_length_le' (p : α → Bool) (l : List α) : (l.takeWhile p).length ≤ l.length := by
  induction l with
  | nil => simp
  | cons a l ih =>
    by_cases h : p a
    · simpa [List.takeWhile, h] using Nat.succ_le_succ ih
    · simp [List.takeWhile, h]

lemma takeWhile_getD {p : Nat → Bool} :
    ∀ (l : List Nat) (m : Nat), m < (l.takeWhile p).length → p (l.getD m 0) = true
  | [], m, h => by simp [List.takeWhile] at h
  | a :: l, m, h => by
    by_cases ha : p a
    · cases m with
      | zero => simpa using ha
      | succ m =>
        simp only [List.takeWhile, ha, List.length_cons] at h
        simp only [List.getD_cons_succ]
        exact takeWhile_getD l m (Nat.lt_of_succ_lt_succ h)
    · simp [List.takeWhile, ha] at h

lemma getD_drop (l : List Nat) : ∀ (n m : Nat), (l.drop n).getD m 0 = l.getD (n + m) 0 := by
  induction l with
  | nil => intro n m; simp
  | cons a l ih =>
    intro n m
    cases n with
    | zero => simp
    | succ n =>
      rw [List.drop_succ_cons, ih n m, Nat.succ_add, List.getD_cons_succ]

lemma le_skipAsciiWs (bs : List Nat) (b : Nat) : b ≤ skipAsciiWs bs b :=
  Nat.le_add_right _ _

lemma skipAsciiWs_le {bs : List Nat} {b : Nat} (h : b ≤ bs.length) :
    skipAsciiWs bs b ≤ bs.length := by
  have h1 := takeWhile_length_le' isWsByte (bs.drop b)
  have h2 : (bs.drop b).length = bs.length - b := List.length_drop _ _
  simp only [skipAsciiWs]
  omega

lemma gapWs_skipAsciiWs (bs : List Nat) (b : Nat) : gapWs bs b (skipAsciiWs bs b) := by
  intro j hj1 hj2
  obtain ⟨m, rfl⟩ : ∃ m, j = b + m := ⟨j - b, by omega⟩
  have hm : m < ((bs.drop b).takeWhile isWsByte).length := by
    simp only [skipAsciiWs] at hj2; omega
  have := takeWhile_getD (bs.drop b) m hm
  rwa [getD_drop] at this

lemma idxTriples_bounds :
    ∀ (p : Nat) (cs : List Char) (t : Nat × Char × Nat), t ∈ idxTriples p cs →
      p ≤ t.1 ∧ t.1 < t.2.2 ∧ t.2.2 ≤ p + byteLen cs := by
  intro p cs
  induction cs generalizing p with
  | nil => intro t ht; simp [idxTriples] at ht
  | cons c cs ih =>
    intro t ht
    simp only [idxTriples, List.mem_cons] at ht
    rcases ht with rfl | ht
    · have := utf8Len_pos c
      have : 0 < byteLen (c :: cs) := byteLen_pos (by simp)
      refine ⟨le_refl _, by simpa using utf8Len_pos c, ?_⟩
      simp only [byteLen, List.map_cons, List.sum_cons]
      have : byteLen cs = (cs.map utf8Len).sum := rfl
      omega
    · obtain ⟨h1, h2, h3⟩ := ih (p + utf8Len c) t ht
      refine ⟨by omega, h2, ?_⟩
      simp only [byteLen, List.map_cons, List.sum_cons] at *
      omega

/-- Loop invariant of the `compute_visual_lines` scan. -/
def wrapInv (bs : List Nat) (st : WrapState) : Prop :=
  chain bs 0 st.segs st.currentStart ∧ st.currentStart ≤ bs.length ∧
    ∀ b, st.lastBoundary = some b → b ≤ bs.length

end Zrd

namespace Zrd

lemma wrapHard_inv {bs : List Nat} {st : WrapState} {byteIdx : Nat}
    (hchain : chain bs 0 st.segs st.currentStart)
    (hcur : st.currentStart ≤ bs.length) (hb : byteIdx ≤ bs.length) :
    wrapInv bs (wrapHard bs byteIdx st) := by
  simp only [wrapHard, tryHyphenateWord]
  split
  case isTrue h =>
    exact ⟨chain_snoc _ hchain (le_refl _) (gapWs_empty (le_refl _)) h, hb, by simp⟩
  case isFalse h =>
    exact ⟨hchain, hcur, by simp⟩

lemma wrapStep_inv {adv : Nat → ℚ} {w : ℚ} {bs : List Nat} {st : WrapState}
    {t : Nat × Char × Nat}
    (hinv : wrapInv bs st) (ht1 : t.1 < t.2.2) (ht2 : t.2.2 ≤ bs.length) :
    wrapInv bs (wrapStep adv w bs st t) := by
  obtain ⟨hchain, hcur, hlb⟩ := hinv
  have hlb' : ∀ b, (if rustIsWhitespace t.2.1 then some t.2.2 else st.lastBoundary) = some b →
      b ≤ bs.length := by
    intro b hb
    split at hb
    · cases hb; omega
    · exact hlb b hb
  simp only [wrapStep]
  split
  case isTrue hw =>
    rcases hif : (if rustIsWhitespace t.2.1 then some t.2.2 else st.lastBoundary) with _ | boundary
    · simp only [hif]
      exact wrapHard_inv hchain hcur (by omega)
    · simp only [hif]
      split
      case isTrue hlt =>
        have hble : boundary ≤ bs.length := hlb' boundary hif
        refine ⟨?_, skipAsciiWs_le hble, by simp⟩
        exact chain_extend
          (chain_snoc _ hchain (le_refl _) (gapWs_empty (le_refl _)) hlt)
          (le_skipAsciiWs bs boundary) (gapWs_skipAsciiWs bs boundary)
      case isFalse hlt =>
        exact wrapHard_inv hchain hcur (by omega)
  case isFalse hw =>
    exact ⟨hchain, hcur, hlb'⟩

lemma foldl_wrapInv {adv : Nat → ℚ} {w : ℚ} {bs : List Nat} :
    ∀ (ts : List (Nat × Char × Nat)) (st : WrapState),
      (∀ t ∈ ts, t.1 < t.2.2 ∧ t.2.2 ≤ bs.length) → wrapInv bs st →
      wrapInv bs (ts.foldl (wrapStep adv w bs) st)
  | [], st, _, hinv => hinv
  | t :: ts, st, hts, hinv => by
    have h1 := hts t (by simp)
    exact foldl_wrapInv ts _ (fun u hu => hts u (List.mem_cons_of_mem _ hu))
      (wrapStep_inv hinv h1.1 h1.2)

end Zrd

namespace Zrd

lemma computeVisualLines_chain (adv : Nat → ℚ) (w : ℚ) (line : List Char) (h : line ≠ []) :
    chain (utf8Bytes line) 0 (computeVisualLines adv w line) (byteLen line) := by
  have hne : line.isEmpty = false := by simpa [List.isEmpty_iff] using h
  simp only [computeVisualLines, hne, Bool.false_eq_true, if_false]
  have hlen : (utf8Bytes line).length = byteLen line := utf8Bytes_length line
  have hbounds : ∀ t ∈ idxTriples 0 line, t.1 < t.2.2 ∧ t.2.2 ≤ (utf8Bytes line).length := by
    intro t ht
    obtain ⟨h1, h2, h3⟩ := idxTriples_bounds 0 line t ht
    exact ⟨h2, by omega⟩
  have hinv : wrapInv (utf8Bytes line)
      ((idxTriples 0 line).foldl (wrapStep adv w (utf8Bytes line)) ⟨[], 0, none⟩) :=
    foldl_wrapInv _ _ hbounds ⟨⟨le_refl 0, gapWs_empty (le_refl 0)⟩, Nat.zero_le _, by simp⟩
  set st := (idxTriples 0 line).foldl (wrapStep adv w (utf8Bytes line)) ⟨[], 0, none⟩ with hst
  obtain ⟨hchain, hcur, _⟩ := hinv
  by_cases hlt : st.currentStart < byteLen line
  · have hchain2 : chain (utf8Bytes line) 0
        (st.segs ++ [⟨st.currentStart, byteLen line, .SoftWrap⟩]) (byteLen line) :=
      chain_snoc _ hchain (le_refl _) (gapWs_empty (le_refl _)) hlt
    simp only [hlt, if_true]
    have hne2 : (st.segs ++ [(⟨st.currentStart, byteLen line, .SoftWrap⟩ : VisualLine)]).isEmpty
        = false := by simp
    simp only [hne2, Bool.false_eq_true, if_false]
    exact hchain2
  · have hcs : st.currentStart = byteLen line := by omega
    simp only [hlt, if_false]
    by_cases hse : st.segs.isEmpty
    · simp only [hse, if_true]
      have hsegs : st.segs = [] := by simpa [List.isEmpty_iff] using hse
      rw [hsegs, hcs] at hchain
      exact ⟨le_refl 0, gapWs_empty (le_refl 0), byteLen_pos h,
        le_refl _, gapWs_empty (le_refl _)⟩
    · simp only [hse, Bool.false_eq_true, if_false]
      rw [hcs] at hchain
      exact hchain

end Zrd

namespace Zrd

/-- Font bounds tracked by the view actions. -/
def fontOK (s : EditorState) : Prop := 8 ≤ s.font_size ∧ s.font_size ≤ 72

/-- The document part of the freshly created engine state: a single empty
row with the cursor at the origin. -/
def atOrigin (s : EditorState) : Prop := s.lines = [[]] ∧ s.cursor = ⟨0, 0⟩

lemma font_clearSel (s : EditorState) : (clearSel s).font_size = s.font_size := rfl

lemma font_pinAnchor (s : EditorState) : (pinAnchor s).font_size = s.font_size := by
  unfold pinAnchor; rcases s.selection_anchor <;> rfl

lemma font_deleteRange (s : EditorState) (a b : BufferPosition) :
    (deleteRange s a b).font_size = s.font_size := by
  unfold deleteRange; split <;> rfl

lemma font_collapseSel (s : EditorState) (a b : BufferPosition) :
    (collapseSel s a b).font_size = s.font_size := by
  simp [collapseSel, font_deleteRange]

lemma font_deleteSelection (s : EditorState) :
    (deleteSelection s).font_size = s.font_size := by
  unfold deleteSelection
  rcases h : selectionRange s with _ | ⟨a, b⟩
  · rfl
  · exact font_collapseSel s a b

lemma font_typeCharCore (c : Char) (s : EditorState) :
    (typeCharCore c s).font_size = s.font_size := by
  unfold typeCharCore; split <;> rfl

lemma font_typeCharState (c : Char) (s : EditorState) :
    (typeCharState c s).font_size = s.font_size := by
  rw [typeCharState, font_typeCharCore, font_deleteSelection]

lemma font_typeStringCore (str : List Char) :
    ∀ s : EditorState, (typeStringCore str s).font_size = s.font_size := by
  induction str with
  | nil => intro s; rfl
  | cons c cs ih =>
    intro s
    show (typeStringCore cs (typeCharCore c s)).font_size = s.font_size
    rw [ih, font_typeCharCore]

lemma font_typeStringState (str : List Char) (s : EditorState) :
    (typeStringState str s).font_size = s.font_size := by
  rw [typeStringState, font_typeStringCore, font_deleteSelection]

lemma font_backspaceState (s : EditorState) :
    (backspaceState s).font_size = s.font_size := by
  simp only [backspaceState]
  rcases h : selectionRange s with _ | ⟨a, b⟩
  · simp only
    split
    · split <;> rfl
    · split <;> rfl
  · exact font_collapseSel s a b

lemma font_deleteState (s : EditorState) :
    (deleteState s).font_size = s.font_size := by
  simp only [deleteState]
  rcases h : selectionRange s with _ | ⟨a, b⟩
  · simp only
    split
    · rfl
    · split <;> rfl
  · exact font_collapseSel s a b

lemma font_newlineCore (s : EditorState) :
    (newlineCore s).font_size = s.font_size := by
  simp only [newlineCore]
  rcases h : detectListPattern (lineAt s s.cursor.row) with _ | ⟨pat, patLen, isEmp⟩
  · rfl
  · dsimp only
    split <;> rfl

lemma font_newlineState (s : EditorState) :
    (newlineState s).font_size = s.font_size := by
  rw [newlineState, font_newlineCore, font_deleteSelection]

lemma font_deleteLineState (s : EditorState) :
    (deleteLineState s).font_size = s.font_size := by
  simp only [deleteLineState, clearSel]
  split
  · rfl
  · split <;> rfl

lemma font_deleteToBeginningOfLineState (s : EditorState) :
    (deleteToBeginningOfLineState s).font_size = s.font_size := rfl

lemma font_deleteToEndOfLineState (s : EditorState) :
    (deleteToEndOfLineState s).font_size = s.font_size := rfl

lemma font_moveLineUpState (s : EditorState) :
    (moveLineUpState s).font_size = s.font_size := rfl

lemma font_moveLineDownState (s : EditorState) :
    (moveLineDownState s).font_size = s.font_size := rfl

lemma font_tabState (s : EditorState) : (tabState s).font_size = s.font_size := by
  unfold tabState
  rcases h : selectionRange s with _ | ⟨a, b⟩ <;> rfl

lemma font_outdentState (s : EditorState) :
    (outdentState s).font_size = s.font_size := by
  unfold outdentState
  rcases h : selectionRange s with _ | ⟨a, b⟩
  · simp only
    split <;> rfl
  · rfl

lemma font_moveLeftBody (s : EditorState) : (moveLeftBody s).font_size = s.font_size := by
  simp only [moveLeftBody]
  split
  · split <;> rfl
  · split <;> rfl

lemma font_moveRightBody (s : EditorState) : (moveRightBody s).font_size = s.font_size := by
  simp only [moveRightBody]
  split
  · split <;> rfl
  · split <;> rfl

lemma font_moveUpBody (s : EditorState) : (moveUpBody s).font_size = s.font_size := by
  unfold moveUpBody; split <;> rfl

lemma font_moveDownBody (s : EditorState) : (moveDownBody s).font_size = s.font_size := by
  unfold moveDownBody; split <;> rfl

lemma font_moveWordLeftState (s : EditorState) :
    (moveWordLeftState s).font_size = s.font_size := by
  simp only [moveWordLeftState]
  split
  · split <;> rfl
  · rfl

lemma font_moveWordRightState (s : EditorState) :
    (moveWordRightState s).font_size = s.font_size := by
  simp only [moveWordRightState]
  split
  · split <;> rfl
  · rfl

lemma font_moveToLineStartState (s : EditorState) :
    (moveToLineStartState s).font_size = s.font_size := rfl

lemma font_moveToLineEndState (s : EditorState) :
    (moveToLineEndState s).font_size = s.font_size := rfl

lemma font_selectAllState (s : EditorState) :
    (selectAllState s).font_size = s.font_size := rfl

lemma font_setCursorPositionState (r c : Nat) (s : EditorState) :
    (setCursorPositionState r c s).font_size = s.font_size := rfl

lemma font_startSelectionState (r c : Nat) (s : EditorState) :
    (startSelectionState r c s).font_size = s.font_size := rfl

lemma font_extendSelectionState (r c : Nat) (s : EditorState) :
    (extendSelectionState r c s).font_size = s.font_size := by
  rw [extendSelectionState]
  simp only [font_pinAnchor]

end Zrd

namespace Zrd

lemma atOrigin_clearSel {s : EditorState} (h : atOrigin s) : atOrigin (clearSel s) := h

lemma atOrigin_pinAnchor {s : EditorState} (h : atOrigin s) : atOrigin (pinAnchor s) := by
  unfold pinAnchor
  rcases s.selection_anchor <;> exact h

lemma atOrigin_moveLeftBody {s : EditorState} (h : atOrigin s) : atOrigin (moveLeftBody s) := by
  obtain ⟨hl, hc⟩ := h
  simp only [moveLeftBody, hc]
  norm_num
  exact ⟨hl, hc⟩

lemma atOrigin_moveRightBody {s : EditorState} (h : atOrigin s) : atOrigin (moveRightBody s) := by
  obtain ⟨hl, hc⟩ := h
  simp only [moveRightBody, hc, lineAt, hl]
  norm_num [byteLen]
  exact ⟨hl, hc⟩

lemma atOrigin_moveUpBody {s : EditorState} (h : atOrigin s) : atOrigin (moveUpBody s) := by
  obtain ⟨hl, hc⟩ := h
  simp only [moveUpBody, hc]
  norm_num
  exact ⟨hl, hc⟩

lemma atOrigin_moveDownBody {s : EditorState} (h : atOrigin s) : atOrigin (moveDownBody s) := by
  obtain ⟨hl, hc⟩ := h
  simp only [moveDownBody, hc, hl]
  norm_num
  exact ⟨hl, hc⟩

lemma atOrigin_moveWordLeftState {s : EditorState} (h : atOrigin s) :
    atOrigin (moveWordLeftState s) := by
  obtain ⟨hl, hc⟩ := h
  simp only [moveWordLeftState, clearSel, hc]
  norm_num
  exact ⟨hl, rfl⟩


lemma atOrigin_moveWordRightState {s : EditorState} (h : atOrigin s) :
    atOrigin (moveWordRightState s) := by
  obtain ⟨hl, hc⟩ := h
  simp only [moveWordRightState, clearSel, hc, lineAt, hl]
  norm_num [byteLen]
  exact ⟨rfl, rfl⟩

lemma atOrigin_moveToLineStartState {s : EditorState} (h : atOrigin s) :
    atOrigin (moveToLineStartState s) := by
  obtain ⟨hl, hc⟩ := h
  exact ⟨hl, by simp [moveToLineStartState, clearSel, hc]⟩

lemma atOrigin_moveToLineEndState {s : EditorState} (h : atOrigin s) :
    atOrigin (moveToLineEndState s) := by
  obtain ⟨hl, hc⟩ := h
  refine ⟨hl, ?_⟩
  simp [moveToLineEndState, clearSel, hc, lineAt, hl, byteLen]

lemma atOrigin_selectAllState {s : EditorState} (h : atOrigin s) :
    atOrigin (selectAllState s) := by
  obtain ⟨hl, hc⟩ := h
  refine ⟨hl, ?_⟩
  simp [selectAllState, hl, lineAt, byteLen]

lemma atOrigin_setCursorPositionState {s : EditorState} (r c : Nat) (h : atOrigin s) :
    atOrigin (setCursorPositionState r c s) := by
  obtain ⟨hl, hc⟩ := h
  refine ⟨hl, ?_⟩
  simp [setCursorPositionState, clearSel, hl, lineAt, byteLen]

lemma atOrigin_startSelectionState {s : EditorState} (r c : Nat) (h : atOrigin s) :
    atOrigin (startSelectionState r c s) := by
  obtain ⟨hl, hc⟩ := h
  refine ⟨hl, ?_⟩
  simp [startSelectionState, hl, lineAt, byteLen]

lemma atOrigin_extendSelectionState {s : EditorState} (r c : Nat) (h : atOrigin s) :
    atOrigin (extendSelectionState r c s) := by
  obtain ⟨hl, hc⟩ := atOrigin_pinAnchor h
  refine ⟨hl, ?_⟩
  simp [extendSelectionState, hl, lineAt, byteLen]

end Zrd

namespace Zrd

/-- Invariant of every reachable engine: a recorded edit time implies a
non-empty undo stack; an empty undo stack implies the document is still
the initial single empty row with the cursor at the origin (no edit ever
happened, or everything was undone back to the very first snapshot); the
bottom-most undo snapshot is always that initial document; and the font
size of the current state and of every snapshot stays within bounds. -/
structure EngineInv (e : Engine) : Prop where
  timeUndo : e.last_edit_time ≠ none → e.undo_stack ≠ []
  emptyUndo : e.undo_stack = [] → atOrigin e.state
  bottomUndo : ∀ s, e.undo_stack.getLast? = some s → atOrigin s
  fontState : fontOK e.state
  fontUndo : ∀ s ∈ e.undo_stack, fontOK s
  fontRedo : ∀ s ∈ e.redo_stack, fontOK s

lemma getLast?_cons_eq (a : α) (l : List α) :
    (a :: l).getLast? = some (l.getLast?.getD a) := by
  induction l generalizing a with
  | nil => rfl
  | cons b bs ih =>
    rw [List.getLast?_cons_cons, ih b]
    rfl

lemma getLast?_none {l : List α} (h : l.getLast? = none) : l = [] := by
  cases l with
  | nil => rfl
  | cons a l' => rw [getLast?_cons_eq] at h; cases h

lemma pushUndo_ne {e : Engine} (now : Nat) (h : EngineInv e) :
    (pushUndoState e now).undo_stack ≠ [] := by
  unfold pushUndoState
  split
  case isTrue => simp
  case isFalse hp =>
    have ht : e.last_edit_time ≠ none := by
      intro hn
      simp [shouldPushUndoState, hn] at hp
    exact h.timeUndo ht

lemma pushUndo_bottom {e : Engine} (now : Nat) (h : EngineInv e) :
    ∀ s, (pushUndoState e now).undo_stack.getLast? = some s → atOrigin s := by
  intro s hs
  unfold pushUndoState at hs
  split at hs
  · simp only at hs
    rw [getLast?_cons_eq] at hs
    cases hu : e.undo_stack.getLast? with
    | none =>
      rw [hu] at hs
      simp at hs
      rw [← hs]
      exact h.emptyUndo (getLast?_none hu)
    | some b =>
      rw [hu] at hs
      simp at hs
      rw [← hs]
      exact h.bottomUndo b hu
  · exact h.bottomUndo s hs

lemma pushUndo_fontUndo {e : Engine} (now : Nat) (h : EngineInv e) :
    ∀ s ∈ (pushUndoState e now).undo_stack, fontOK s := by
  intro s hs
  unfold pushUndoState at hs
  split at hs
  · simp only [List.mem_cons] at hs
    rcases hs with rfl | hs
    · exact h.fontState
    · exact h.fontUndo s hs
  · exact h.fontUndo s hs

lemma pushUndo_fontRedo {e : Engine} (now : Nat) (h : EngineInv e) :
    ∀ s ∈ (pushUndoState e now).redo_stack, fontOK s := by
  intro s hs
  unfold pushUndoState at hs
  split at hs
  · simp at hs
  · exact h.fontRedo s hs

lemma pushUndo_state {e : Engine} (now : Nat) : (pushUndoState e now).state = e.state := by
  unfold pushUndoState; split <;> rfl

/-- Invariant preservation for navigation and selection actions. -/
lemma stateStep_inv {f : EditorState → EditorState} {e : Engine}
    (hfont : ∀ s, (f s).font_size = s.font_size)
    (horig : ∀ s, atOrigin s → atOrigin (f s))
    (h : EngineInv e) : EngineInv (stateStep f e) where
  timeUndo := h.timeUndo
  emptyUndo := fun hu => horig _ (h.emptyUndo hu)
  bottomUndo := h.bottomUndo
  fontState := by
    have := hfont e.state
    unfold fontOK at *
    rw [stateStep]
    rw [this]
    exact h.fontState
  fontUndo := h.fontUndo
  fontRedo := h.fontRedo

/-- Invariant preservation for the `type_character`-style edits. -/
lemma timedEditStep_inv {f : EditorState → EditorState} {e : Engine} {now : Nat}
    (hfont : ∀ s, (f s).font_size = s.font_size)
    (h : EngineInv e) : EngineInv (timedEditStep f now e) where
  timeUndo := fun _ => pushUndo_ne now h
  emptyUndo := fun hu => absurd hu (pushUndo_ne now h)
  bottomUndo := pushUndo_bottom now h
  fontState := by
    show fontOK (f (pushUndoState e now).state)
    unfold fontOK
    rw [hfont, pushUndo_state]
    exact h.fontState
  fontUndo := pushUndo_fontUndo now h
  fontRedo := pushUndo_fontRedo now h

/-- Invariant preservation for the `newline`-style edits. -/
lemma untimedEditStep_inv {f : EditorState → EditorState} {e : Engine} {now : Nat}
    (hfont : ∀ s, (f s).font_size = s.font_size)
    (h : EngineInv e) : EngineInv (untimedEditStep f now e) where
  timeUndo := fun hn => absurd rfl hn
  emptyUndo := fun hu => absurd hu (pushUndo_ne now h)
  bottomUndo := pushUndo_bottom now h
  fontState := by
    show fontOK (f (pushUndoState e now).state)
    unfold fontOK
    rw [hfont, pushUndo_state]
    exact h.fontState
  fontUndo := pushUndo_fontUndo now h
  fontRedo := pushUndo_fontRedo now h

lemma undoE_inv {e : Engine} (h : EngineInv e) : EngineInv (undoE e) := by
  unfold undoE
  cases hu : e.undo_stack with
  | nil => exact h
  | cons p rest =>
    show EngineInv
      { state := p, undo_stack := rest, redo_stack := e.state :: e.redo_stack, last_edit_time := none }
    refine ⟨fun hn => absurd rfl hn, ?_, ?_, ?_, ?_, ?_⟩
    · intro hr
      have hl : e.undo_stack.getLast? = some p := by
        rw [hu]
        simp only at hr
        rw [hr]
        rfl
      exact h.bottomUndo p hl
    · intro s hs
      simp only at hs
      have hl : e.undo_stack.getLast? = some s := by
        rw [hu, getLast?_cons_eq]
        cases hrl : rest.getLast? with
        | none => rw [hrl] at hs; cases hs
        | some b => rw [hrl] at hs; simpa using hs
      exact h.bottomUndo s hl
    · exact h.fontUndo p (by rw [hu]; simp)
    · intro s hs
      exact h.fontUndo s (by rw [hu]; simp only [List.mem_cons]; exact Or.inr hs)
    · intro s hs
      simp only [List.mem_cons] at hs
      rcases hs with rfl | hs
      · exact h.fontState
      · exact h.fontRedo s hs

lemma redoE_inv {e : Engine} (h : EngineInv e) : EngineInv (redoE e) := by
  unfold redoE
  cases hr : e.redo_stack with
  | nil => exact h
  | cons n rest =>
    show EngineInv
      { state := n, undo_stack := e.state :: e.undo_stack, redo_stack := rest, last_edit_time := none }
    refine ⟨fun hn => absurd rfl hn, by simp, ?_, ?_, ?_, ?_⟩
    · intro s hs
      simp only at hs
      rw [getLast?_cons_eq] at hs
      cases hu : e.undo_stack.getLast? with
      | none =>
        rw [hu] at hs
        simp at hs
        rw [← hs]
        exact h.emptyUndo (getLast?_none hu)
      | some b =>
        rw [hu] at hs
        simp at hs
        rw [← hs]
        exact h.bottomUndo b hu
    · exact h.fontRedo n (by rw [hr]; simp)
    · intro s hs
      simp only [List.mem_cons] at hs
      rcases hs with rfl | hs
      · exact h.fontState
      · exact h.fontUndo s hs
    · intro s hs
      exact h.fontRedo s (by rw [hr]; simp only [List.mem_cons]; exact Or.inr hs)

end Zrd

namespace Zrd

/-- Invariant preservation for an edit that pushes, clears the edit time,
and then modifies the document with a font-preserving function. -/
lemma pushModify_inv {e : Engine} {now : Nat} {g : EditorState → EditorState}
    (hg : ∀ s, (g s).font_size = s.font_size) (h : EngineInv e) :
    EngineInv { pushUndoState e now with
      last_edit_time := none, state := g (pushUndoState e now).state } where
  timeUndo := fun hn => absurd rfl hn
  emptyUndo := fun hu => absurd hu (pushUndo_ne now h)
  bottomUndo := pushUndo_bottom now h
  fontState := by
    show fontOK (g (pushUndoState e now).state)
    unfold fontOK
    rw [hg, pushUndo_state]
    exact h.fontState
  fontUndo := pushUndo_fontUndo now h
  fontRedo := pushUndo_fontRedo now h

/-- The document modification of `delete_word_left`, as a function of the
state, for invariant bookkeeping. -/
def dwlG (stopPos startPos : BufferPosition) (s : EditorState) : EditorState :=
  { s with lines :=
      s.lines.set stopPos.row (replaceRangeB (lineAt s stopPos.row) stopPos.column startPos.column []) }

/-- The document modification of `delete_word_right`, as a function of the
state, for invariant bookkeeping. -/
def dwrG (startPos stopPos : BufferPosition) (s : EditorState) : EditorState :=
  { s with cursor := startPos, lines :=
      s.lines.set startPos.row (replaceRangeB (lineAt s startPos.row) startPos.column stopPos.column []) }

lemma deleteWordLeftE_inv {e : Engine} {now : Nat} (h : EngineInv e) :
    EngineInv (deleteWordLeftE now e) := by
  have h1 : EngineInv { e with state := moveWordLeftState e.state } :=
    stateStep_inv font_moveWordLeftState (fun _ hs => atOrigin_moveWordLeftState hs) h
  unfold deleteWordLeftE
  dsimp only
  split
  case isTrue hrow =>
    exact @pushModify_inv { e with state := moveWordLeftState e.state } now
      (dwlG (moveWordLeftState e.state).cursor e.state.cursor) (fun s => rfl) h1
  case isFalse hrow =>
    exact h1

lemma deleteWordRightE_inv {e : Engine} {now : Nat} (h : EngineInv e) :
    EngineInv (deleteWordRightE now e) := by
  have h1 : EngineInv { e with state := moveWordRightState e.state } :=
    stateStep_inv font_moveWordRightState (fun _ hs => atOrigin_moveWordRightState hs) h
  unfold deleteWordRightE
  dsimp only
  split
  case isTrue hrow =>
    exact @pushModify_inv { e with state := moveWordRightState e.state } now
      (dwrG e.state.cursor (moveWordRightState e.state).cursor) (fun s => rfl) h1
  case isFalse hrow =>
    exact h1

lemma fontOK_inc {s : EditorState} (h : fontOK s) :
    fontOK { s with font_size := min (s.font_size + 2) 72 } := by
  obtain ⟨h1, h2⟩ := h
  constructor
  · show (8 : ℚ) ≤ min (s.font_size + 2) 72
    apply le_min <;> linarith
  · exact min_le_right _ _

lemma fontOK_dec {s : EditorState} (h : fontOK s) :
    fontOK { s with font_size := max (s.font_size - 2) 8 } := by
  obtain ⟨h1, h2⟩ := h
  constructor
  · exact le_max_right _ _
  · show max (s.font_size - 2) 8 ≤ (72 : ℚ)
    apply max_le <;> linarith

lemma fontOK_reset (s : EditorState) : fontOK { s with font_size := (14 : ℚ) } := by
  constructor <;> norm_num [fontOK]

/-- Invariant preservation for the three view (font) actions. -/
lemma fontStep_inv {e : Engine} {g : ℚ → ℚ}
    (hg : ∀ s : EditorState, fontOK s → fontOK { s with font_size := g s.font_size })
    (h : EngineInv e) :
    EngineInv (stateStep (fun s => { s with font_size := g s.font_size }) e) where
  timeUndo := h.timeUndo
  emptyUndo := fun hu => h.emptyUndo hu
  bottomUndo := h.bottomUndo
  fontState := hg e.state h.fontState
  fontUndo := h.fontUndo
  fontRedo := h.fontRedo

/-- Preservation of the engine invariant by every single action. -/
lemma handleAction_inv {e : Engine} (act : EditorAction) (now : Nat) (h : EngineInv e) :
    EngineInv (handleAction act now e) := by
  cases act with
  | TypeCharacter c => exact timedEditStep_inv (font_typeCharState c) h
  | TypeString str => exact timedEditStep_inv (font_typeStringState str) h
  | Backspace => exact timedEditStep_inv font_backspaceState h
  | Delete => exact timedEditStep_inv font_deleteState h
  | Newline => exact untimedEditStep_inv font_newlineState h
  | Paste str => exact h
  | MoveLeft =>
    exact stateStep_inv (fun s => by rw [font_moveLeftBody, font_clearSel])
      (fun _ hs => atOrigin_moveLeftBody (atOrigin_clearSel hs)) h
  | MoveRight =>
    exact stateStep_inv (fun s => by rw [font_moveRightBody, font_clearSel])
      (fun _ hs => atOrigin_moveRightBody (atOrigin_clearSel hs)) h
  | MoveUp =>
    exact stateStep_inv (fun s => by rw [font_moveUpBody, font_clearSel])
      (fun _ hs => atOrigin_moveUpBody (atOrigin_clearSel hs)) h
  | MoveDown =>
    exact stateStep_inv (fun s => by rw [font_moveDownBody, font_clearSel])
      (fun _ hs => atOrigin_moveDownBody (atOrigin_clearSel hs)) h
  | MoveToBeginningOfLine =>
    exact stateStep_inv font_moveToLineStartState
      (fun _ hs => atOrigin_moveToLineStartState hs) h
  | MoveToEndOfLine =>
    exact stateStep_inv font_moveToLineEndState
      (fun _ hs => atOrigin_moveToLineEndState hs) h
  | MoveWordLeft =>
    exact stateStep_inv font_moveWordLeftState
      (fun _ hs => atOrigin_moveWordLeftState hs) h
  | MoveWordRight =>
    exact stateStep_inv font_moveWordRightState
      (fun _ hs => atOrigin_moveWordRightState hs) h
  | SelectLeft =>
    exact stateStep_inv (fun s => by rw [font_moveLeftBody, font_pinAnchor])
      (fun _ hs => atOrigin_moveLeftBody (atOrigin_pinAnchor hs)) h
  | SelectRight =>
    exact stateStep_inv (fun s => by rw [font_moveRightBody, font_pinAnchor])
      (fun _ hs => atOrigin_moveRightBody (atOrigin_pinAnchor hs)) h
  | SelectUp =>
    exact stateStep_inv (fun s => by rw [font_moveUpBody, font_pinAnchor])
      (fun _ hs => atOrigin_moveUpBody (atOrigin_pinAnchor hs)) h
  | SelectDown =>
    exact stateStep_inv (fun s => by rw [font_moveDownBody, font_pinAnchor])
      (fun _ hs => atOrigin_moveDownBody (atOrigin_pinAnchor hs)) h
  | SelectWordLeft =>
    exact stateStep_inv (fun s => by rw [font_moveWordLeftState, font_pinAnchor])
      (fun _ hs => atOrigin_moveWordLeftState (atOrigin_pinAnchor hs)) h
  | SelectWordRight =>
    exact stateStep_inv (fun s => by rw [font_moveWordRightState, font_pinAnchor])
      (fun _ hs => atOrigin_moveWordRightState (atOrigin_pinAnchor hs)) h
  | SelectAll =>
    exact stateStep_inv font_selectAllState (fun _ hs => atOrigin_selectAllState hs) h
  | Undo => exact undoE_inv h
  | Redo => exact redoE_inv h
  | Cut => exact h
  | Copy => exact h
  | DeleteLine => exact untimedEditStep_inv font_deleteLineState h
  | DeleteToBeginningOfLine => exact untimedEditStep_inv font_deleteToBeginningOfLineState h
  | DeleteToEndOfLine => exact untimedEditStep_inv font_deleteToEndOfLineState h
  | DeleteWordLeft => exact deleteWordLeftE_inv h
  | DeleteWordRight => exact deleteWordRightE_inv h
  | MoveLineUp =>
    simp only [handleAction]
    split
    · exact h
    · exact untimedEditStep_inv font_moveLineUpState h
  | MoveLineDown =>
    simp only [handleAction]
    split
    · exact h
    · exact untimedEditStep_inv font_moveLineDownState h
  | Tab => exact untimedEditStep_inv font_tabState h
  | Outdent => exact untimedEditStep_inv font_outdentState h
  | IncreaseFontSize => exact @fontStep_inv e (fun x => min (x + 2) 72) (fun s => fontOK_inc) h
  | DecreaseFontSize => exact @fontStep_inv e (fun x => max (x - 2) 8) (fun s => fontOK_dec) h
  | ResetFontSize => exact @fontStep_inv e (fun _ => 14) (fun s _ => fontOK_reset s) h
  | Quit => exact h
  | SetCursorPosition row column =>
    exact stateStep_inv (font_setCursorPositionState row column)
      (fun _ hs => atOrigin_setCursorPositionState row column hs) h
  | StartSelection row column =>
    exact stateStep_inv (font_startSelectionState row column)
      (fun _ hs => atOrigin_startSelectionState row column hs) h
  | ExtendSelection row column =>
    exact stateStep_inv (font_extendSelectionState row column)
      (fun _ hs => atOrigin_extendSelectionState row column hs) h

/-- The engine invariant holds in every reachable engine. -/
lemma run_inv (tr : List (EditorAction × Nat)) : EngineInv (run tr) := by
  have hinit : EngineInv initEngine := by
    refine ⟨fun hn => absurd rfl hn, fun _ => ⟨rfl, rfl⟩, ?_, ?_, ?_, ?_⟩
    · intro s hs; cases hs
    · constructor <;> norm_num [initEngine, initState, fontOK]
    · intro s hs; cases hs
    · intro s hs; cases hs
  have haux : ∀ (l : List (EditorAction × Nat)) (e : Engine), EngineInv e →
      EngineInv (l.foldl (fun e p => handleAction p.1 p.2 e) e) := by
    intro l
    induction l with
    | nil => intro e he; exact he
    | cons p l ih =>
      intro e he
      exact ih _ (handleAction_inv p.1 p.2 he)
  exact haux tr initEngine hinit

end Zrd

namespace Zrd

/-- The mutating edit actions: those arms of `handle_action` that modify
the document and drive the undo manager (Text edit plus Structural). -/
def isMutatingEdit : EditorAction → Bool
  | .TypeCharacter _ | .TypeString _ | .Backspace | .Delete | .Newline
  | .DeleteLine | .DeleteToBeginningOfLine | .DeleteToEndOfLine
  | .DeleteWordLeft | .DeleteWordRight
  | .MoveLineUp | .MoveLineDown | .Tab | .Outdent => true
  | _ => false

/-- The edits whose handlers call `mark_edit_time` and so take part in
time-based undo chunk coalescing. -/
def isTimedEdit : EditorAction → Bool
  | .TypeCharacter _ | .TypeString _ | .Backspace | .Delete => true
  | _ => false

lemma selectionRange_none {s : EditorState} (h : s.selection_anchor = none) :
    selectionRange s = none := by
  simp [selectionRange, h]

lemma deleteSelection_id {s : EditorState} (h : s.selection_anchor = none) :
    deleteSelection s = s := by
  simp [deleteSelection, selectionRange_none h]

lemma timedEditStep_state (f : EditorState → EditorState) (now : Nat) (e : Engine) :
    (timedEditStep f now e).state = f e.state := by
  show f (pushUndoState e now).state = f e.state
  rw [pushUndo_state]

lemma untimedEditStep_state (f : EditorState → EditorState) (now : Nat) (e : Engine) :
    (untimedEditStep f now e).state = f e.state := by
  show f (pushUndoState e now).state = f e.state
  rw [pushUndo_state]

lemma timedEditStep_undo_length (f : EditorState → EditorState) (now : Nat) (e : Engine) :
    (timedEditStep f now e).undo_stack.length =
      if shouldPushUndoState e now then e.undo_stack.length + 1 else e.undo_stack.length := by
  show (pushUndoState e now).undo_stack.length = _
  unfold pushUndoState
  split <;> simp_all

lemma timedEditStep_time (f : EditorState → EditorState) (now : Nat) (e : Engine) :
    (timedEditStep f now e).last_edit_time = some now := rfl

/-- After an `Undo` immediately followed by a `Redo`, the state is back to
what it was, provided the undo stack was non-empty. -/
lemma redoE_undoE_state {e : Engine} (h : e.undo_stack ≠ []) :
    (redoE (undoE e)).state = e.state := by
  cases hu : e.undo_stack with
  | nil => exact absurd hu h
  | cons p rest => simp [undoE, redoE, hu]

lemma pushUndoState_undo_ne_of_push {e : Engine} {now : Nat}
    (h : shouldPushUndoState e now = true) : (pushUndoState e now).undo_stack ≠ [] := by
  simp [pushUndoState, h]

/-- From the initial document, `move_word_left` does not move the cursor. -/
lemma moveWordLeftState_cursor_atOrigin {s : EditorState} (h : atOrigin s) :
    (moveWordLeftState s).cursor = ⟨0, 0⟩ :=
  (atOrigin_moveWordLeftState h).2

/-- From the initial document, `move_word_right` does not move the cursor. -/
lemma moveWordRightState_cursor_atOrigin {s : EditorState} (h : atOrigin s) :
    (moveWordRightState s).cursor = ⟨0, 0⟩ :=
  (atOrigin_moveWordRightState h).2

/-- Every mutating edit leaves a non-empty undo stack behind, given the
reachability invariant (and the `MoveLine` edits provided they act). -/
lemma mutating_undo_ne {e : Engine} (hinv : EngineInv e) (act : EditorAction) (t : Nat)
    (hm : isMutatingEdit act = true)
    (hup : act = .MoveLineUp → e.state.cursor.row ≠ 0)
    (hdown : act = .MoveLineDown → e.state.cursor.row + 1 < e.state.lines.length) :
    (handleAction act t e).undo_stack ≠ [] := by
  cases act with
  | TypeCharacter c => exact pushUndo_ne t hinv
  | TypeString str => exact pushUndo_ne t hinv
  | Backspace => exact pushUndo_ne t hinv
  | Delete => exact pushUndo_ne t hinv
  | Newline => exact pushUndo_ne t hinv
  | DeleteLine => exact pushUndo_ne t hinv
  | DeleteToBeginningOfLine => exact pushUndo_ne t hinv
  | DeleteToEndOfLine => exact pushUndo_ne t hinv
  | DeleteWordLeft =>
    show (deleteWordLeftE t e).undo_stack ≠ []
    unfold deleteWordLeftE
    dsimp only
    split
    case isTrue hrow =>
      exact pushUndo_ne t
        (stateStep_inv font_moveWordLeftState (fun _ hs => atOrigin_moveWordLeftState hs) hinv)
    case isFalse hrow =>
      show e.undo_stack ≠ []
      intro hu
      have ho := hinv.emptyUndo hu
      exact hrow (by rw [moveWordLeftState_cursor_atOrigin ho, ho.2])
  | DeleteWordRight =>
    show (deleteWordRightE t e).undo_stack ≠ []
    unfold deleteWordRightE
    dsimp only
    split
    case isTrue hrow =>
      exact pushUndo_ne t
        (stateStep_inv font_moveWordRightState (fun _ hs => atOrigin_moveWordRightState hs) hinv)
    case isFalse hrow =>
      show e.undo_stack ≠ []
      intro hu
      have ho := hinv.emptyUndo hu
      exact hrow (by rw [moveWordRightState_cursor_atOrigin ho, ho.2])
  | MoveLineUp =>
    simp only [handleAction]
    rw [if_neg (hup rfl)]
    exact pushUndo_ne t hinv
  | MoveLineDown =>
    simp only [handleAction]
    rw [if_neg (by have := hdown rfl; omega)]
    exact pushUndo_ne t hinv
  | Tab => exact pushUndo_ne t hinv
  | Outdent => exact pushUndo_ne t hinv
  | Paste str => simp [isMutatingEdit] at hm
  | MoveLeft => simp [isMutatingEdit] at hm
  | MoveRight => simp [isMutatingEdit] at hm
  | MoveUp => simp [isMutatingEdit] at hm
  | MoveDown => simp [isMutatingEdit] at hm
  | MoveToBeginningOfLine => simp [isMutatingEdit] at hm
  | MoveToEndOfLine => simp [isMutatingEdit] at hm
  | MoveWordLeft => simp [isMutatingEdit] at hm
  | MoveWordRight => simp [isMutatingEdit] at hm
  | SelectLeft => simp [isMutatingEdit] at hm
  | SelectRight => simp [isMutatingEdit] at hm
  | SelectUp => simp [isMutatingEdit] at hm
  | SelectDown => simp [isMutatingEdit] at hm
  | SelectWordLeft => simp [isMutatingEdit] at hm
  | SelectWordRight => simp [isMutatingEdit] at hm
  | SelectAll => simp [isMutatingEdit] at hm
  | Undo => simp [isMutatingEdit] at hm
  | Redo => simp [isMutatingEdit] at hm
  | Cut => simp [isMutatingEdit] at hm
  | Copy => simp [isMutatingEdit] at hm
  | IncreaseFontSize => simp [isMutatingEdit] at hm
  | DecreaseFontSize => simp [isMutatingEdit] at hm
  | ResetFontSize => simp [isMutatingEdit] at hm
  | Quit => simp [isMutatingEdit] at hm
  | SetCursorPosition row column => simp [isMutatingEdit] at hm
  | StartSelection row column => simp [isMutatingEdit] at hm
  | ExtendSelection row column => simp [isMutatingEdit] at hm

end Zrd

namespace Zrd

lemma takeBytes_zero (l : List Char) : takeBytes 0 l = [] := by
  cases l with
  | nil => rfl
  | cons c cs =>
    have := utf8Len_pos c
    simp [takeBytes]
    omega

lemma dropBytes_zero (l : List Char) : dropBytes 0 l = l := by
  cases l with
  | nil => rfl
  | cons c cs =>
    have := utf8Len_pos c
    simp [dropBytes]
    omega

/-- `backspace` at the document start without a selection is the identity
on the document. -/
lemma backspaceState_noop {s : EditorState} (hc : s.cursor = ⟨0, 0⟩)
    (hs : s.selection_anchor = none) : backspaceState s = s := by
  unfold backspaceState
  rw [selectionRange_none hs]
  simp [hc]

/-- Every action whose handler marks the edit time is a `timedEditStep`. -/
lemma isTimedEdit_step {act : EditorAction} (h : isTimedEdit act = true) :
    ∃ f, ∀ (t : Nat) (e : Engine), handleAction act t e = timedEditStep f t e := by
  cases act <;> first
    | exact ⟨_, fun _ _ => rfl⟩
    | exact absurd h (by simp [isTimedEdit])

lemma takeWhile_char_get (p : Char → Bool) :
    ∀ (l : List Char) (m : Nat), m < (l.takeWhile p).length →
      ∃ c, l.get? m = some c ∧ p c = true
  | [], m, h => by simp [List.takeWhile] at h
  | a :: l, m, h => by
    by_cases ha : p a
    · cases m with
      | zero => exact ⟨a, rfl, ha⟩
      | succ m =>
        simp only [List.takeWhile, ha, List.length_cons] at h
        obtain ⟨c, hc, hp⟩ := takeWhile_char_get p l m (Nat.lt_of_succ_lt_succ h)
        exact ⟨c, by simpa using hc, hp⟩
    · simp [List.takeWhile, ha] at h

lemma get?_take {l : List α} {n i : Nat} (h : i < n) : (l.take n).get? i = l.get? i := by
  induction l generalizing n i with
  | nil => simp
  | cons a l ih =>
    cases n with
    | zero => omega
    | succ n =>
      cases i with
      | zero => simp
      | succ i => simpa using ih (by omega)

lemma spacesCount_le_four (l : List Char) : spacesCount l ≤ 4 := by
  have h1 := takeWhile_length_le' (fun c => decide (c = ' ')) (l.take 4)
  have h2 : (l.take 4).length ≤ 4 := by simp
  simp only [spacesCount]
  omega

lemma spacesCount_get {l : List Char} {i : Nat} (h : i < spacesCount l) :
    l.get? i = some ' ' := by
  have h4 : i < 4 := lt_of_lt_of_le h (spacesCount_le_four l)
  obtain ⟨c, hc, hp⟩ := takeWhile_char_get (fun c => decide (c = ' ')) (l.take 4) i h
  have hce : c = ' ' := by simpa using hp
  rw [get?_take h4] at hc
  rw [hc, hce]

lemma dropBytes_spaces :
    ∀ (n : Nat) (l : List Char), (∀ i, i < n → l.get? i = some ' ') →
      dropBytes n l = l.drop n
  | 0, l, _ => by rw [dropBytes_zero, List.drop_zero]
  | n + 1, [], _ => by simp [dropBytes]
  | n + 1, c :: cs, h => by
    have hc : c = ' ' := by
      have := h 0 (by omega)
      simpa using this
    subst hc
    have hlen : utf8Len ' ' = 1 := rfl
    simp only [dropBytes, hlen, if_pos (by omega : (1 : Nat) ≤ n + 1)]
    rw [List.drop_succ_cons]
    exact dropBytes_spaces n cs (fun i hi => by simpa using h (i + 1) (by omega))

lemma outdentLine_drop (l : List Char) : outdentLine l = l.drop (spacesCount l) := by
  unfold outdentLine
  split
  case isTrue h =>
    rw [replaceRangeB, takeBytes_zero, List.nil_append, List.nil_append]
    exact dropBytes_spaces _ l (fun i hi => spacesCount_get hi)
  case isFalse h =>
    have : spacesCount l = 0 := by omega
    rw [this, List.drop_zero]

end Zrd

namespace Zrd

/-- The concrete editor state used to refute C6: a checked checkbox list
item with content, cursor at the end of the row. -/
def c6CheckboxState : EditorState :=
  { lines := ["- [x] a".toList], cursor := ⟨0, 7⟩, selection_anchor := none, font_size := 14 }

/-- The concrete engine used to refute C7: one row `"ab cd"` with the
whole row selected (anchor at the start, cursor at the end). -/
def c7SelectionEngine : Engine :=
  { state := { lines := ["ab cd".toList], cursor := ⟨0, 5⟩,
               selection_anchor := some ⟨0, 0⟩, font_size := 14 },
    undo_stack := [], redo_stack := [], last_edit_time := none }

/-- The concrete editor state used to refute C8: two rows without leading
spaces, anchor `(0,1)`, cursor `(1,2)`. -/
def c8SelectionState : EditorState :=
  { lines := ["ab".toList, "cd".toList], cursor := ⟨1, 2⟩,
    selection_anchor := some ⟨0, 1⟩, font_size := 14 }

/-- C1: the reachability invariant claims `cursor.column` always lies on a
UTF-8 character boundary, but `move_word_left` (and `move_word_right`)
index the row with `chars().nth(pos - 1)` while `pos` is a byte column.
Typing `"日 "` (a 3-byte character and a space) and invoking MoveWordLeft
from the end of the row leaves the cursor at byte column 2 — strictly
inside the character `日`, not on a boundary.  The rest of the claimed
invariant (row in range, column within the row's byte length) holds here;
only the boundary clause is violated, contradicting both the spec and the
byte-column convention documented in `state.rs`. -/
theorem c1_word_move_breaks_utf8_boundary :
    (run [(.TypeString ("日 ".toList), 0), (.MoveWordLeft, 0)]).state.lines = ["日 ".toList] ∧
    (run [(.TypeString ("日 ".toList), 0), (.MoveWordLeft, 0)]).state.cursor = ⟨0, 2⟩ ∧
    isBoundary ("日 ".toList) 2 = false ∧
    byteLen ("日 ".toList) = 4 := by decide

/-- C2 (counterexample): wrapping the row `"a  b"` with unit-width glyphs
(`advance i = i`) at wrap width 1 produces the segments `[0,2)` and
`[3,4)`: byte 2 (the second space, skipped by the whitespace-eating loop
after the soft wrap) is covered by neither segment, so the segments do not
exactly cover `[0, rowLength)` as the claim requires. -/
theorem c2_wrap_coverage_counterexample :
    computeVisualLines (fun i => (i : ℚ)) 1 ("a  b".toList) =
      [⟨0, 2, .SoftWrap⟩, ⟨3, 4, .SoftWrap⟩] ∧
    byteLen ("a  b".toList) = 4 ∧
    ¬((0 ≤ 2 ∧ 2 < 2) ∨ (3 ≤ 2 ∧ 2 < 4)) := by
  refine ⟨?_, by decide, by decide⟩
  have h0 : rustIsWhitespace 'a' = false := by decide
  have h1 : rustIsWhitespace ' ' = true := by decide
  have h2 : rustIsWhitespace 'b' = false := by decide
  have ua : utf8Len 'a' = 1 := by decide
  have us : utf8Len ' ' = 1 := by decide
  have ub : utf8Len 'b' = 1 := by decide
  have ca : charBytes 'a' = [97] := by decide
  have csp : charBytes ' ' = [32] := by decide
  have cb : charBytes 'b' = [98] := by decide
  have iw32 : isWsByte 32 = true := by decide
  have iw97 : isWsByte 97 = false := by decide
  have iw98 : isWsByte 98 = false := by decide
  have ta : 'a'.toNat = 97 := by decide
  have tsp : ' '.toNat = 32 := by decide
  have tb : 'b'.toNat = 98 := by decide
  norm_num [computeVisualLines, idxTriples, byteLen, utf8Bytes, wrapStep, wrapHard,
    tryHyphenateWord, skipAsciiWs, h0, h1, h2, ua, us, ub, ca, csp, cb, iw32, iw97, iw98,
    ta, tsp, tb, List.foldl, List.takeWhile]

/-- C2 (amended): an empty row yields exactly one zero-length soft
segment, and for every non-empty row, measurement function, and wrap
width, the segments form an ordered chain of non-empty, non-overlapping
byte ranges from 0 to the row's byte length in which every uncovered byte
(in particular the whitespace skipped after a soft wrap) is ASCII
whitespace; exact coverage of `[0, rowLength)` does not hold in general. -/
theorem c2_wrap_segments_chain :
    (∀ (advance : Nat → ℚ) (w : ℚ), computeVisualLines advance w [] = [⟨0, 0, .SoftWrap⟩]) ∧
    ∀ (advance : Nat → ℚ) (w : ℚ) (line : List Char), line ≠ [] →
      chain (utf8Bytes line) 0 (computeVisualLines advance w line) (byteLen line) :=
  ⟨fun _ _ => rfl, computeVisualLines_chain⟩

/-- C2 (witness): the amended statement instantiated on the row `"ab"`. -/
theorem c2_wrap_segments_chain_witness :
    ("ab".toList ≠ []) ∧
    chain (utf8Bytes "ab".toList) 0
      (computeVisualLines (fun _ => 0) 5 "ab".toList) (byteLen "ab".toList) :=
  ⟨by decide, c2_wrap_segments_chain.2 (fun _ => 0) 5 "ab".toList (by decide)⟩

/-- C3 (counterexample): type `'a'`, Undo (undo stack now empty, redo
holds the typed state), then apply the mutating edit MoveLineUp at row 0:
it returns before touching the history.  Undo is then a no-op, and Redo
re-applies the stale redo entry, yielding rows `["a"]` while the state
immediately after the edit had rows `[""]` — the claimed E-Undo-Redo
round trip fails for this engine state and mutating edit. -/
theorem c3_undo_redo_counterexample :
    (handleAction .Redo 400 (handleAction .Undo 300
        (handleAction .MoveLineUp 200 (run [(.TypeCharacter 'a', 0), (.Undo, 100)])))).state.lines
      = [['a']] ∧
    (handleAction .MoveLineUp 200 (run [(.TypeCharacter 'a', 0), (.Undo, 100)])).state.lines
      = [[]] ∧
    isMutatingEdit .MoveLineUp = true ∧
    ([['a']] : List (List Char)) ≠ [[]] := by decide

/-- C3 (amended): for every reachable engine state and every mutating
edit action, applying the edit, then Undo, then Redo restores the rows,
cursor, and selection of the state immediately after the edit — provided
the edit is not one of the two structural no-ops that return before
touching the history (MoveLineUp at the first row, MoveLineDown at the
last row). -/
theorem c3_edit_undo_redo_roundtrip (tr : List (EditorAction × Nat)) (act : EditorAction)
    (t1 t2 t3 : Nat) (hm : isMutatingEdit act = true)
    (hup : act = .MoveLineUp → (run tr).state.cursor.row ≠ 0)
    (hdown : act = .MoveLineDown → (run tr).state.cursor.row + 1 < (run tr).state.lines.length) :
    (handleAction .Redo t3 (handleAction .Undo t2
        (handleAction act t1 (run tr)))).state.lines
      = (handleAction act t1 (run tr)).state.lines ∧
    (handleAction .Redo t3 (handleAction .Undo t2
        (handleAction act t1 (run tr)))).state.cursor
      = (handleAction act t1 (run tr)).state.cursor ∧
    (handleAction .Redo t3 (handleAction .Undo t2
        (handleAction act t1 (run tr)))).state.selection_anchor
      = (handleAction act t1 (run tr)).state.selection_anchor := by
  have hne := mutating_undo_ne (run_inv tr) act t1 hm hup hdown
  have hst : (redoE (undoE (handleAction act t1 (run tr)))).state
      = (handleAction act t1 (run tr)).state := redoE_undoE_state hne
  exact ⟨congrArg EditorState.lines hst, congrArg EditorState.cursor hst,
    congrArg EditorState.selection_anchor hst⟩

/-- C3 (witness): the amended statement instantiated on the empty trace
and a Backspace edit. -/
theorem c3_edit_undo_redo_roundtrip_witness :
    isMutatingEdit .Backspace = true ∧
    ((handleAction .Redo 2 (handleAction .Undo 1
        (handleAction .Backspace 0 (run [])))).state.lines
      = (handleAction .Backspace 0 (run [])).state.lines ∧
    (handleAction .Redo 2 (handleAction .Undo 1
        (handleAction .Backspace 0 (run [])))).state.cursor
      = (handleAction .Backspace 0 (run [])).state.cursor ∧
    (handleAction .Redo 2 (handleAction .Undo 1
        (handleAction .Backspace 0 (run [])))).state.selection_anchor
      = (handleAction .Backspace 0 (run [])).state.selection_anchor) :=
  ⟨by decide, c3_edit_undo_redo_roundtrip [] .Backspace 0 1 2 (by decide)
    (fun h => absurd h (by decide)) (fun h => absurd h (by decide))⟩

end Zrd

namespace Zrd

/-- C4 (counterexample): two TypeCharacter edits issued exactly 500ms
apart — the claim's "≥500ms, two frames" case — produce a single undo
frame, because `should_push_undo_state` requires strictly more than 500ms
(`duration > UNDO_CHUNK_DURATION`). -/
theorem c4_debounce_boundary_counterexample :
    (run [(.TypeCharacter 'a', 0), (.TypeCharacter 'b', 500)]).undo_stack.length = 1 ∧
    (run [(.TypeCharacter 'a', 0), (.TypeCharacter 'b', 501)]).undo_stack.length = 2 := by
  decide

/-- C4 (amended): for two consecutive edits among TypeCharacter,
TypeString, Backspace, Delete (the actions that mark the chunk timer),
starting from a clean chunk state, at most 500ms apart coalesce into
exactly one undo frame and strictly more than 500ms apart produce exactly
two; the other mutating actions reset the timer instead and are not
covered by the debounce rule. -/
theorem c4_debounce_frames (e : Engine) (t1 t2 : Nat) (a1 a2 : EditorAction)
    (h1 : isTimedEdit a1 = true) (h2 : isTimedEdit a2 = true)
    (hclean : e.last_edit_time = none) :
    (handleAction a2 t2 (handleAction a1 t1 e)).undo_stack.length =
      e.undo_stack.length + (if 500 < t2 - t1 then 2 else 1) := by
  obtain ⟨f1, hf1⟩ := isTimedEdit_step h1
  obtain ⟨f2, hf2⟩ := isTimedEdit_step h2
  rw [hf1, hf2]
  rw [timedEditStep_undo_length, timedEditStep_undo_length]
  have hp1 : shouldPushUndoState e t1 = true := by
    simp [shouldPushUndoState, hclean]
  have hp2 : shouldPushUndoState (timedEditStep f1 t1 e) t2 = decide (500 < t2 - t1) := by
    simp [shouldPushUndoState, timedEditStep_time]
  rw [hp1, hp2]
  by_cases hlt : 500 < t2 - t1
  · simp [hlt]
  · simp [hlt]

/-- C4 (witness): the amended statement instantiated on the fresh engine
with two character edits 501ms apart. -/
theorem c4_debounce_frames_witness :
    isTimedEdit (.TypeCharacter 'a') = true ∧
    initEngine.last_edit_time = none ∧
    (handleAction (.TypeCharacter 'b') 501
        (handleAction (.TypeCharacter 'a') 0 initEngine)).undo_stack.length =
      initEngine.undo_stack.length + (if 500 < 501 - 0 then 2 else 1) :=
  ⟨by decide, rfl,
    c4_debounce_frames initEngine 0 501 (.TypeCharacter 'a') (.TypeCharacter 'b')
      (by decide) (by decide) rfl⟩

/-- C5: serializing joins rows with a newline separator and parsing splits
on newlines (empty input giving a single empty row); for any state whose
rows are newline-free (and non-empty, per the document invariant), the
round trip restores the rows exactly, and therefore re-serializes to the
same text. -/
theorem c5_text_roundtrip :
    (∀ s : EditorState, s.lines ≠ [] → (∀ l ∈ s.lines, '\n' ∉ l) →
      (fromStringS (toTextS s)).lines = s.lines ∧
      toTextS (fromStringS (toTextS s)) = toTextS s) ∧
    (fromStringS []).lines = [[]] := by
  constructor
  · intro s h1 h2
    have hrows : (fromStringS (toTextS s)).lines = s.lines := by
      unfold fromStringS toTextS
      by_cases he : (joinNl s.lines).isEmpty
      · have hn : joinNl s.lines = [] := by simpa [List.isEmpty_iff] using he
        rcases joinNl_nil_cases hn with h | h
        · exact absurd h h1
        · rw [h]
          rfl
      · simp only [he, Bool.false_eq_true, if_false]
        exact splitNl_joinNl h1 h2
    refine ⟨hrows, ?_⟩
    show joinNl (fromStringS (toTextS s)).lines = joinNl s.lines
    rw [hrows]
  · rfl

/-- The concrete two-row state used to witness C5. -/
def c5WitnessState : EditorState :=
  { lines := [['a'], []], cursor := ⟨0, 0⟩, selection_anchor := none, font_size := 14 }

/-- C5 (witness): the round trip on the two-row state `["a", ""]`. -/
theorem c5_text_roundtrip_witness :
    c5WitnessState.lines ≠ [] ∧
    (fromStringS (toTextS c5WitnessState)).lines = c5WitnessState.lines :=
  ⟨by decide, (c5_text_roundtrip.1 c5WitnessState (by decide) (by decide)).1⟩

/-- C6 (counterexample): on the row `"- [x] a"` (a checked checkbox item
with non-empty content, cursor at the end) Newline pre-populates the new
row with `"- [ ] "` — the unchecked checkbox marker — not with the same
marker `"- [x] "` the current row carries, refuting the claim that the
new row receives the same marker as the current row. -/
theorem c6_checkbox_marker_counterexample :
    (newlineState c6CheckboxState).lines = ["- [x] a".toList, "- [ ] ".toList] ∧
    detectListPattern ("- [x] a".toList) = some ("- [ ] ".toList, 6, false) ∧
    ("- [x] ".toList).isPrefixOf ("- [ ] ".toList) = false := by decide

/-- C6 (amended): when the current row matches a list-marker pattern with
non-empty content and no selection is active, Newline inserts a new row
consisting of the detected continuation marker followed by the text right
of the cursor, and places the cursor after that marker on the new row.
The continuation marker equals the current row's marker for `"- "`,
`"* "`, `"+ "` and `"- [ ] "`, is `"- [ ] "` for the checked variants
`"- [x] "`/`"- [X] "`, and is `"<N+1>. "` for an ordered marker
`"<N>. "`, as computed by `detectListPattern`. -/
theorem c6_list_marker_continuation (s : EditorState) (pat : List Char) (patLen : Nat)
    (hsel : s.selection_anchor = none) (hrow : s.cursor.row < s.lines.length)
    (hdet : detectListPattern (lineAt s s.cursor.row) = some (pat, patLen, false)) :
    (newlineState s).lines.get? (s.cursor.row + 1) =
      some (pat ++ dropBytes s.cursor.column (lineAt s s.cursor.row)) ∧
    (newlineState s).cursor = ⟨s.cursor.row + 1, byteLen pat⟩ ∧
    (newlineState s).lines.length = s.lines.length + 1 := by
  have h1 : newlineState s = newlineCore s := by
    rw [newlineState, deleteSelection_id hsel]
  rw [h1]
  simp only [newlineCore]
  rw [hdet]
  dsimp only
  rw [if_neg (by simp)]
  have hb : s.cursor.row + 1 ≤ (s.lines.set s.cursor.row
      (takeBytes s.cursor.column (lineAt s s.cursor.row))).length := by
    simp
    omega
  refine ⟨insertAt_get?_self _ _ _ hb, rfl, ?_⟩
  rw [insertAt_length _ hb]
  simp

/-- The concrete one-row list-item state used to witness C6. -/
def c6WitnessState : EditorState :=
  { lines := ["- a".toList], cursor := ⟨0, 3⟩, selection_anchor := none, font_size := 14 }

/-- C6 (witness): the amended statement instantiated on the row `"- a"`
with the cursor at the end. -/
theorem c6_list_marker_continuation_witness :
    c6WitnessState.selection_anchor = none ∧
    (newlineState c6WitnessState).cursor = ⟨c6WitnessState.cursor.row + 1, byteLen ("- ".toList)⟩ :=
  ⟨rfl,
    (c6_list_marker_continuation c6WitnessState ("- ".toList) 2 rfl (by decide) (by decide)).2.1⟩

end Zrd

namespace Zrd

/-- C7 (counterexample): DeleteWordLeft on the fully selected row
`"ab cd"` (anchor `(0,0)`, cursor `(0,5)`) does not first delete the
selected range: `move_word_left` merely clears the anchor and moves the
cursor, and then the word left of the cursor is deleted, leaving
`["ab "]`.  Had the claim held, the selection would have been deleted
first and the action's own effect applied to the collapsed state, leaving
`[""]` — the second conjunct computes that claimed result with the code's
own collapse routine. -/
theorem c7_delete_word_ignores_selection :
    (handleAction .DeleteWordLeft 0 c7SelectionEngine).state.lines = ["ab ".toList] ∧
    (handleAction .DeleteWordLeft 0
        { c7SelectionEngine with state := deleteSelection c7SelectionEngine.state }).state.lines
      = [[]] ∧
    (["ab ".toList] : List (List Char)) ≠ [[]] := by decide

/-- C7 (amended): with an active selection, TypeCharacter, TypeString and
Newline first delete the selected range, collapse the cursor to the range
start and clear the selection, then apply their own effect to the
collapsed state; Backspace and Delete perform exactly the collapse and
nothing more.  (DeleteLine, DeleteToBeginningOfLine/EndOfLine and
DeleteWordLeft/Right do not collapse the selection first.) -/
theorem c7_selection_collapse_first (e : Engine) (t : Nat) (c : Char) (str : List Char)
    (start stop : BufferPosition) (hsel : selectionRange e.state = some (start, stop)) :
    (handleAction (.TypeCharacter c) t e).state = typeCharCore c (collapseSel e.state start stop) ∧
    (handleAction (.TypeString str) t e).state
      = typeStringCore str (collapseSel e.state start stop) ∧
    (handleAction .Newline t e).state = newlineCore (collapseSel e.state start stop) ∧
    (handleAction .Backspace t e).state = collapseSel e.state start stop ∧
    (handleAction .Delete t e).state = collapseSel e.state start stop ∧
    (collapseSel e.state start stop).selection_anchor = none ∧
    (collapseSel e.state start stop).cursor = start := by
  have hds : deleteSelection e.state = collapseSel e.state start stop := by
    unfold deleteSelection
    rw [hsel]
  refine ⟨?_, ?_, ?_, ?_, ?_, rfl, rfl⟩
  · show (timedEditStep (typeCharState c) t e).state = _
    rw [timedEditStep_state, typeCharState, hds]
  · show (timedEditStep (typeStringState str) t e).state = _
    rw [timedEditStep_state, typeStringState, hds]
  · show (untimedEditStep newlineState t e).state = _
    rw [untimedEditStep_state, newlineState, hds]
  · show (timedEditStep backspaceState t e).state = _
    rw [timedEditStep_state]
    unfold backspaceState
    rw [hsel]
  · show (timedEditStep deleteState t e).state = _
    rw [timedEditStep_state]
    unfold deleteState
    rw [hsel]

/-- C7 (witness): the amended statement instantiated on the selected-row
engine used by the counterexample. -/
theorem c7_selection_collapse_first_witness :
    selectionRange c7SelectionEngine.state = some (⟨0, 0⟩, ⟨0, 5⟩) ∧
    (handleAction .Backspace 0 c7SelectionEngine).state
      = collapseSel c7SelectionEngine.state ⟨0, 0⟩ ⟨0, 5⟩ :=
  ⟨by decide,
    (c7_selection_collapse_first c7SelectionEngine 0 'x' [] ⟨0, 0⟩ ⟨0, 5⟩ (by decide)).2.2.2.1⟩

/-- C8 (counterexample): Outdent with anchor `(0,1)` and cursor `(1,2)` on
rows `["ab", "cd"]` removes no spaces (no row has leading spaces) yet
still shifts the cursor column from 2 to `2 - 4 = 0` and the anchor
column from 1 to 0, instead of shifting by the amount actually removed
(0) as the claim requires. -/
theorem c8_outdent_flat_shift_counterexample :
    (outdentState c8SelectionState).cursor = ⟨1, 0⟩ ∧
    (outdentState c8SelectionState).lines = ["ab".toList, "cd".toList] ∧
    spacesCount ("cd".toList) = 0 ∧
    (outdentState c8SelectionState).cursor ≠ c8SelectionState.cursor := by decide

/-- C8 (amended): with an active selection, Outdent removes
`min(4, leading spaces)` from every row in the selected row range and
leaves the other rows unchanged, but shifts both the anchor column and
the cursor column left by a flat 4 (saturating at 0), regardless of how
many spaces were actually removed on their rows. -/
theorem c8_outdent_selection (s : EditorState) (start stop : BufferPosition)
    (hsel : selectionRange s = some (start, stop)) (_hrow : stop.row < s.lines.length) :
    (outdentState s).selection_anchor = some ⟨start.row, start.column - 4⟩ ∧
    (outdentState s).cursor = ⟨stop.row, stop.column - 4⟩ ∧
    (outdentState s).lines.length = s.lines.length ∧
    (∀ i, (outdentState s).lines.get? i =
      (s.lines.get? i).map (fun l => if start.row ≤ i ∧ i ≤ stop.row then outdentLine l else l)) ∧
    (∀ l, outdentLine l = l.drop (spacesCount l)) ∧
    (∀ l, spacesCount l ≤ 4) ∧
    (∀ (l : List Char) i, i < spacesCount l → l.get? i = some ' ') := by
  unfold outdentState
  rw [hsel]
  dsimp only
  refine ⟨rfl, rfl, mapIdxFrom_length _ _ _, ?_, outdentLine_drop, spacesCount_le_four,
    fun l i hi => spacesCount_get hi⟩
  intro i
  rw [mapIdxFrom_get?]
  simp only [Nat.zero_add]

/-- C8 (witness): the amended statement instantiated on the engine state
used by the counterexample. -/
theorem c8_outdent_selection_witness :
    selectionRange c8SelectionState = some (⟨0, 1⟩, ⟨1, 2⟩) ∧
    (outdentState c8SelectionState).cursor = ⟨(⟨1, 2⟩ : BufferPosition).row,
      (⟨1, 2⟩ : BufferPosition).column - 4⟩ :=
  ⟨by decide,
    (c8_outdent_selection c8SelectionState ⟨0, 1⟩ ⟨1, 2⟩ (by decide) (by decide)).2.1⟩

/-- C9 (counterexample): Backspace at the document start of the fresh
engine leaves the document unchanged but does not leave the undo/redo
history unchanged: `push_undo_state()` runs before the no-op is detected,
so an undo frame (equal to the current state) is pushed. -/
theorem c9_backspace_pushes_history :
    (run [(.Backspace, 0)]).undo_stack.length = 1 ∧
    initEngine.undo_stack.length = 0 ∧
    (run [(.Backspace, 0)]).state = initState := by decide

/-- C9 (amended): Backspace at the document start with no selection
leaves rows, cursor and selection unchanged, but still records history:
when the debounce allows a push it snapshots the (unchanged) state onto
the undo stack and clears the redo stack, and it always marks the edit
time. -/
theorem c9_backspace_at_start (e : Engine) (t : Nat)
    (hc : e.state.cursor = ⟨0, 0⟩) (hs : e.state.selection_anchor = none) :
    handleAction .Backspace t e =
      { state := e.state,
        undo_stack := if shouldPushUndoState e t then e.state :: e.undo_stack else e.undo_stack,
        redo_stack := if shouldPushUndoState e t then [] else e.redo_stack,
        last_edit_time := some t } := by
  show timedEditStep backspaceState t e = _
  unfold timedEditStep pushUndoState
  by_cases hp : shouldPushUndoState e t
  · simp [hp, backspaceState_noop hc hs]
  · simp [hp, backspaceState_noop hc hs]

/-- C9 (witness): the amended statement instantiated on the fresh engine. -/
theorem c9_backspace_at_start_witness :
    initEngine.state.cursor = ⟨0, 0⟩ ∧
    handleAction .Backspace 0 initEngine =
      { state := initEngine.state,
        undo_stack := if shouldPushUndoState initEngine 0 then
          initEngine.state :: initEngine.undo_stack else initEngine.undo_stack,
        redo_stack := if shouldPushUndoState initEngine 0 then [] else initEngine.redo_stack,
        last_edit_time := some 0 } :=
  ⟨rfl, c9_backspace_at_start initEngine 0 rfl rfl⟩

/-- C10: the font size of every reachable engine state lies in
`[8, 72]`; IncreaseFontSize adds 2 capped at 72, DecreaseFontSize
subtracts 2 floored at 8, ResetFontSize sets exactly 14, and the initial
font size is 14.  (The reachability part also covers Undo/Redo, which can
only reinstall snapshots of earlier reachable states.) -/
theorem c10_font_size_invariant :
    (∀ tr : List (EditorAction × Nat),
      8 ≤ (run tr).state.font_size ∧ (run tr).state.font_size ≤ 72) ∧
    (∀ (e : Engine) (t : Nat),
      (handleAction .IncreaseFontSize t e).state.font_size = min (e.state.font_size + 2) 72) ∧
    (∀ (e : Engine) (t : Nat),
      (handleAction .DecreaseFontSize t e).state.font_size = max (e.state.font_size - 2) 8) ∧
    (∀ (e : Engine) (t : Nat),
      (handleAction .ResetFontSize t e).state.font_size = 14) ∧
    initEngine.state.font_size = 14 :=
  ⟨fun tr => (run_inv tr).fontState, fun _ _ => rfl, fun _ _ => rfl, fun _ _ => rfl, rfl⟩

end Zrd
